import Mathlib

/-!
Shallow embedding of the VideoStitchMaster server core.

Embedded source:
* `src/server/routes.ts` (first variant): the module-level `segments` /
  `combinations` stores, the `/api/combinations/generate` handler (pool
  filtering, emptiness rejection, the nested hook/story/cta loops, the
  per-combination job closure and its catch-handler cleanup) and the
  `/api/combinations` listing.
* `src/server/queue.ts`: `ProcessingQueue` (`add`, the single-worker
  `process` loop with the `processing` flag, per-task try/catch and the
  inter-task delay).
* `src/server/videoProcessor.ts` (third variant, the one the spec
  describes): `processVideoCombination` — input verification before the
  subprocess is spawned, the spawn outcome (close / error event /
  timeout), and the close handler with its output verification.

External effects (the file system, the ffmpeg subprocess, timers) are
modelled as explicit parameters: a file system is a map from paths to
file sizes (`none` = absent or unreadable), and the subprocess outcome
is an oracle value.  `randomUUID` is modelled as a fresh-id counter
threaded through the state: all that the code relies on is that the
generated ids are pairwise distinct.  The JavaScript event loop is
modelled as a labelled transition system whose atomic steps are the
maximal synchronous blocks between `await` suspension points, which is
exactly the granularity at which concurrent requests interleave.
-/

set_option linter.unusedVariables false

/-- Pool of a video segment (`VideoSegment.type` in routes.ts). -/
inductive SegType where
  | hook
  | story
  | cta
  deriving DecidableEq, Repr

/-- Status of a combination (`VideoCombination.status` in routes.ts). -/
inductive Status where
  | processing
  | ready
  | error
  deriving DecidableEq, Repr

/-- `VideoSegment` of routes.ts.  Ids are modelled as naturals drawn from a
fresh-id counter in place of `randomUUID()`. -/
structure Segment where
  id : Nat
  file : String
  type : SegType
  previewUrl : String
  deriving DecidableEq, Repr

/-- `VideoCombination` of routes.ts: `hook`, `story`, `cta` hold segment ids. -/
structure Combination where
  id : Nat
  hook : Nat
  story : Nat
  cta : Nat
  status : Status
  downloadUrl : Option String
  deriving DecidableEq, Repr

/-- The data captured by the job closure pushed onto `processingQueue` in the
generate handler: the new combination's id (from which `outputPath` is
derived) and the three segment ids used for the `segments.find` lookups. -/
structure Job where
  combId : Nat
  hookId : Nat
  storyId : Nat
  ctaId : Nat
  deriving DecidableEq, Repr

/-- `s.type === 'hook'` as a Bool predicate. -/
def isHook (s : Segment) : Bool := decide (s.type = SegType.hook)

/-- `s.type === 'story'` as a Bool predicate. -/
def isStory (s : Segment) : Bool := decide (s.type = SegType.story)

/-- `s.type === 'cta'` as a Bool predicate. -/
def isCta (s : Segment) : Bool := decide (s.type = SegType.cta)

/-- `path.join('public', 'combinations', id + '.mp4')` of the job closure. -/
def combPath (id : Nat) : String :=
  "public/combinations/" ++ toString id ++ ".mp4"

/-- `'/combinations/' + path.basename(outputPath)` set on success. -/
def dlUrl (id : Nat) : String :=
  "/combinations/" ++ toString id ++ ".mp4"

/-- The job closure built for a combination in the generate handler,
projected to the data it captures. -/
def combToJob (c : Combination) : Job :=
  { combId := c.id, hookId := c.hook, storyId := c.story, ctaId := c.cta }

/-- Innermost loop of the generate handler (`for (const cta of ctas)`): for a
fixed hook and story, create one combination record and one queued job per
cta, threading the fresh-id counter. -/
def ctaLoop (h s : Segment) : List Segment → Nat → List Combination × List Job × Nat
  | [], n => ([], [], n)
  | c :: rest, n =>
    let comb : Combination :=
      { id := n, hook := h.id, story := s.id, cta := c.id,
        status := Status.processing, downloadUrl := none }
    let out := ctaLoop h s rest (n + 1)
    (comb :: out.1, combToJob comb :: out.2.1, out.2.2)

/-- Middle loop of the generate handler (`for (const story of stories)`). -/
def storyLoop (h : Segment) (ctas : List Segment) :
    List Segment → Nat → List Combination × List Job × Nat
  | [], n => ([], [], n)
  | s :: rest, n =>
    let inner := ctaLoop h s ctas n
    let out := storyLoop h ctas rest inner.2.2
    (inner.1 ++ out.1, inner.2.1 ++ out.2.1, out.2.2)

/-- Outer loop of the generate handler (`for (const hook of hooks)`). -/
def hookLoop (stories ctas : List Segment) :
    List Segment → Nat → List Combination × List Job × Nat
  | [], n => ([], [], n)
  | h :: rest, n =>
    let inner := storyLoop h ctas stories n
    let out := hookLoop stories ctas rest inner.2.2
    (inner.1 ++ out.1, inner.2.1 ++ out.2.1, out.2.2)

/-- The generate handler rejects with HTTP 400 `Missing required segments`
when one of the three pools is empty. -/
inductive GenErr where
  | missingInputs
  deriving DecidableEq, Repr

/-- Result of a successful generate call: the records created by this call,
the jobs submitted to the queue (one per record, in the same order), the
combination store after the `combinations.push` calls, and the fresh-id
counter afterwards. -/
structure GenOut where
  newCombs : List Combination
  newJobs : List Job
  combinations : List Combination
  nextId : Nat
  deriving DecidableEq, Repr

/-- The `/api/combinations/generate` handler (routes.ts, first variant),
without the queue side: filter the three pools from the segment store,
reject if any is empty, otherwise run the nested loops, pushing each new
record onto the combination store and one job per record onto the queue. -/
def generateFn (segments : List Segment) (combos : List Combination) (n : Nat) :
    Except GenErr GenOut :=
  let hooks := segments.filter isHook
  let stories := segments.filter isStory
  let ctas := segments.filter isCta
  if hooks.isEmpty || stories.isEmpty || ctas.isEmpty then
    Except.error GenErr.missingInputs
  else
    let out := hookLoop stories ctas hooks n
    Except.ok { newCombs := out.1, newJobs := out.2.1,
                combinations := combos ++ out.1, nextId := out.2.2 }

/-- A file system: path to file size; `none` means the path is absent or not
readable (both `fs.existsSync` and `fs.access(..., R_OK)` fail on it). -/
def FS : Type := String → Option Nat

/-- `fs.unlinkSync p` modelled as succeeding: the path is removed. -/
def eraseFile (fs : FS) (p : String) : FS :=
  fun q => if q = p then none else fs q

/-- The synchronous prefix of a job closure, as it runs when `add` starts the
worker inside the generate handler's block: the three `segments.find`
lookups (a miss throws a TypeError at the `.file` access) and the
`fs.existsSync` input checks all precede the task's first suspension point
(`processVideoCombination` suspends at its very first `await fs.access`).
Returns `true` when the prefix reaches that `await` and the task suspends
with the record untouched, `false` when it throws, in which case the catch
clause has already run synchronously and set the record to `error`. -/
def jobSyncOk (segments : List Segment) (fs : FS) (j : Job) : Bool :=
  match segments.find? (fun s => s.id == j.hookId),
        segments.find? (fun s => s.id == j.storyId),
        segments.find? (fun s => s.id == j.ctaId) with
  | some h, some s, some c =>
    (fs h.file).isSome && (fs s.file).isSome && (fs c.file).isSome
  | _, _, _ => false

/-- What `res.json(combinations)` serializes at the end of the generate
handler (routes.ts, first variant): the whole combination store as it
stands at response time.  The handler's body is one synchronous block, but
when the queue's worker was idle, the first `processingQueue.add` starts
the worker, which runs the head job's task synchronously up to its first
`await`; if that synchronous prefix throws, the head record is already in
status `error` when the response is serialized. -/
def generateResponse (segments : List Segment) (combos : List Combination) (n : Nat)
    (pending : List Job) (flag : Bool) (fs : FS) : Except GenErr (List Combination) :=
  match generateFn segments combos n with
  | Except.error e => Except.error e
  | Except.ok out =>
    if flag then Except.ok out.combinations
    else
      match pending ++ out.newJobs with
      | [] => Except.ok out.combinations
      | j :: _ =>
        if jobSyncOk segments fs j then Except.ok out.combinations
        else Except.ok (out.combinations.map
          (fun c => if c.id = j.combId then { c with status := Status.error } else c))

/-- Rejection reasons of `processVideoCombination` (third variant). -/
inductive PvcErr where
  /-- `Unable to access input file ...` thrown by the input verification. -/
  | inputNotFound (file : String)
  /-- `FFmpeg process error: ...` from the subprocess `error` event. -/
  | procError (msg : String)
  /-- `FFmpeg process timed out after 5 minutes`. -/
  | timeout
  /-- `Failed to verify output file: ...` from the close handler's catch. -/
  | verifyFailed (msg : String)
  /-- `FFmpeg generated an empty output file`. -/
  | emptyOutput
  /-- `FFmpeg process failed with code ...`. -/
  | processFailed (code : Int)
  deriving DecidableEq, Repr

/-- Oracle for the behaviour of a spawned ffmpeg subprocess: which of the
three competing callbacks settles the promise (close event with an exit
code, error event, or the 5-minute timeout), together with the file system
as the subprocess leaves it. -/
inductive SpawnOutcome where
  | closed (code : Int) (fsAfter : FS)
  | procError (msg : String) (fsAfter : FS)
  | timedOut (fsAfter : FS)

/-- One invocation of `processVideoCombination`: whether the subprocess was
spawned, how the returned promise settled, and the resulting file system. -/
structure PvcRun where
  spawned : Bool
  result : Except PvcErr String
  fsAfter : FS

/-- The expression `fs.promises.stat(p)` in the third variant's close
handler.  `fs` there is the default import of `node:fs/promises`, which has
no `promises` property, so `fs.promises` is `undefined` and the call throws
a TypeError for every path, landing in the handler's catch clause. -/
def fsPromisesStat (fs : FS) (p : String) : Except String Nat :=
  Except.error "TypeError: Cannot read properties of undefined (reading stat)"

/-- The `close` handler of `processVideoCombination` (third variant): on exit
code 0 it tries to stat the output (the stat call as written always throws,
see `fsPromisesStat`; the size-zero branch is kept as in the source), on a
nonzero code it rejects with the code. -/
def closeHandlerV3 (fs : FS) (outputPath : String) (code : Int) :
    Except PvcErr String :=
  if code = 0 then
    match fsPromisesStat fs outputPath with
    | Except.error e => Except.error (PvcErr.verifyFailed e)
    | Except.ok size =>
      if size = 0 then Except.error PvcErr.emptyOutput
      else Except.ok outputPath
  else
    Except.error (PvcErr.processFailed code)

/-- `processVideoCombination` (videoProcessor.ts, third variant): verify every
input is present and readable, throwing at the first failure without
spawning ffmpeg; otherwise spawn and settle according to the subprocess
outcome, the close path going through `closeHandlerV3`. -/
def processVideoCombinationV3 (fs : FS) (inputFiles : List String)
    (outputPath : String) (spawn : SpawnOutcome) : PvcRun :=
  match inputFiles.find? (fun f => (fs f).isNone) with
  | some f => { spawned := false, result := Except.error (PvcErr.inputNotFound f), fsAfter := fs }
  | none =>
    match spawn with
    | SpawnOutcome.procError m fs' =>
      { spawned := true, result := Except.error (PvcErr.procError m), fsAfter := fs' }
    | SpawnOutcome.timedOut fs' =>
      { spawned := true, result := Except.error PvcErr.timeout, fsAfter := fs' }
    | SpawnOutcome.closed code fs' =>
      { spawned := true, result := closeHandlerV3 fs' outputPath code, fsAfter := fs' }

/-- Oracle for the `await processVideoCombination(...)` call inside the job
closure: whether the returned promise resolved, and the file system after
the subprocess ran (it may have partially written the output). -/
structure PvcBeh where
  resolves : Bool
  fsAfter : FS

/-- Observable outcome of running one job closure: the status and download
url written to the combination record, and the file system afterwards. -/
structure JobOut where
  status : Status
  downloadUrl : Option String
  fs : FS

/-- The catch clause of the job closure (routes.ts, first variant): set the
status to `error`, then remove a partial output file if one exists (the
`unlinkSync` is modelled as succeeding). -/
def jobCatch (fs : FS) (outputPath : String) : JobOut :=
  { status := Status.error, downloadUrl := none,
    fs := if (fs outputPath).isSome then eraseFile fs outputPath else fs }

/-- The job closure of the generate handler (routes.ts, first variant): look
the three segments up by id (a failed lookup throws on the `.file` access
and lands in the catch clause), verify the input files exist, await
`processVideoCombination`, verify the output file exists, and set
`ready`/`error` accordingly; every throw is handled by `jobCatch`. -/
def runJob (segments : List Segment) (fs : FS) (j : Job) (pvc : PvcBeh) : JobOut :=
  let outputPath := combPath j.combId
  match segments.find? (fun s => s.id == j.hookId),
        segments.find? (fun s => s.id == j.storyId),
        segments.find? (fun s => s.id == j.ctaId) with
  | some h, some s, some c =>
    if (fs h.file).isSome && (fs s.file).isSome && (fs c.file).isSome then
      if pvc.resolves then
        if (pvc.fsAfter outputPath).isSome then
          { status := Status.ready, downloadUrl := some (dlUrl j.combId), fs := pvc.fsAfter }
        else jobCatch pvc.fsAfter outputPath
      else jobCatch pvc.fsAfter outputPath
    else jobCatch fs outputPath
  | _, _, _ => jobCatch fs outputPath

/-- How one job's try block ends, as observed by the combination store: the
try block ran to completion (`success`) or threw (`failure`).  Which one
happens is decided by the environment (file system, subprocess), so the
transition system quantifies over it; `runJob` is the detailed version. -/
inductive Outcome where
  | success
  | failure
  deriving DecidableEq, Repr

/-- State of the single queue worker between suspension points: currently
awaiting some job's task promise, or in the `setTimeout` delay between
tasks.  `processing === true` iff a worker exists. -/
inductive Worker where
  | awaiting (j : Job)
  | delaying
  deriving DecidableEq, Repr

/-- The whole server state at a suspension point of the event loop: the two
module-level stores of routes.ts, the queue's task list and `processing`
flag, the worker (if any), and the fresh-id counter. -/
structure Config where
  segments : List Segment
  combinations : List Combination
  pending : List Job
  flag : Bool
  worker : Option Worker
  nextId : Nat

/-- Events observable in a trace: a segment upload, a job enqueued by the
generate handler, a job's task starting to execute, and a job's task
settling with an outcome. -/
inductive Ev where
  | upload (segId : Nat)
  | enq (j : Job)
  | beg (j : Job)
  | fin (j : Job) (o : Outcome)
  deriving DecidableEq, Repr

/-- The upload handler's success path: push one immutable segment record. -/
def uploadFn (cfg : Config) (ty : SegType) (file url : String) : Config :=
  { cfg with
    segments := cfg.segments ++ [{ id := cfg.nextId, file := file, type := ty, previewUrl := url }],
    nextId := cfg.nextId + 1 }

/-- Store effect of a settling job task, as performed by the closure's tail:
on success `combination.status = 'ready'` plus the download url, on failure
`combination.status = 'error'`.  Only the record the closure captured is
written. -/
def applyOutcome (c : Combination) (j : Job) (o : Outcome) : Combination :=
  match o with
  | Outcome.success => { c with status := Status.ready, downloadUrl := some (dlUrl j.combId) }
  | Outcome.failure => { c with status := Status.error }

/-- The awaited task of the running job settles: its combination record is
written, and the worker moves into the inter-task delay. -/
def finishFn (cfg : Config) (j : Job) (o : Outcome) : Config :=
  { cfg with
    combinations := cfg.combinations.map
      (fun c => if c.id = j.combId then applyOutcome c j o else c),
    worker := some Worker.delaying }

/-- The inter-task `setTimeout` fires: the worker loop re-checks the queue,
shifts the next task if there is one, and otherwise clears `processing` and
terminates. -/
def tickFn (cfg : Config) : Config × List Ev :=
  match cfg.pending with
  | [] => ({ cfg with flag := false, worker := none }, [])
  | h :: t => ({ cfg with pending := t, worker := some (Worker.awaiting h) }, [Ev.beg h])

/-- The generate handler as one atomic step (its body has no await): run
`generateFn`; on rejection nothing changes; otherwise push the new records,
enqueue the new jobs, and — when no worker was draining — `process()` starts
one, which immediately shifts the queue head and begins awaiting its task. -/
def genStep (cfg : Config) : Config × List Ev :=
  match generateFn cfg.segments cfg.combinations cfg.nextId with
  | Except.error _ => (cfg, [])
  | Except.ok out =>
    let base := { cfg with combinations := out.combinations, nextId := out.nextId }
    if cfg.flag then
      ({ base with pending := cfg.pending ++ out.newJobs }, out.newJobs.map Ev.enq)
    else
      match cfg.pending ++ out.newJobs with
      | [] => ({ base with pending := [] }, out.newJobs.map Ev.enq)
      | h :: t =>
        ({ base with pending := t, flag := true, worker := some (Worker.awaiting h) },
         out.newJobs.map Ev.enq ++ [Ev.beg h])

/-- One atomic step of the event loop, labelled with the events it emits. -/
inductive Step : Config → List Ev → Config → Prop where
  | upload (cfg : Config) (ty : SegType) (file url : String) :
      Step cfg [Ev.upload cfg.nextId] (uploadFn cfg ty file url)
  | generate (cfg : Config) :
      Step cfg (genStep cfg).2 (genStep cfg).1
  | finish (cfg : Config) (j : Job) (o : Outcome)
      (h : cfg.worker = some (Worker.awaiting j)) :
      Step cfg [Ev.fin j o] (finishFn cfg j o)
  | tick (cfg : Config) (h : cfg.worker = some Worker.delaying) :
      Step cfg (tickFn cfg).2 (tickFn cfg).1

/-- Reflexive-transitive closure of `Step`, concatenating event lists. -/
inductive Steps : Config → List Ev → Config → Prop where
  | refl (cfg : Config) : Steps cfg [] cfg
  | head {cfg cfg₁ cfg₂ : Config} {evs evs₂ : List Ev} :
      Step cfg evs cfg₁ → Steps cfg₁ evs₂ cfg₂ → Steps cfg (evs ++ evs₂) cfg₂

/-- The server starts with empty stores, an empty queue and an idle worker. -/
def initConfig : Config :=
  { segments := [], combinations := [], pending := [], flag := false,
    worker := none, nextId := 0 }

/-- Configurations reachable from the initial state, with their trace. -/
inductive Reach : Config → List Ev → Prop where
  | init : Reach initConfig []
  | step {cfg cfg' : Config} {tr evs : List Ev} :
      Reach cfg tr → Step cfg evs cfg' → Reach cfg' (tr ++ evs)

/-- Jobs enqueued in a trace, in order. -/
def enqsOf (tr : List Ev) : List Job :=
  tr.filterMap (fun e => match e with | Ev.enq j => some j | _ => none)

/-- Jobs whose execution began in a trace, in order. -/
def begsOf (tr : List Ev) : List Job :=
  tr.filterMap (fun e => match e with | Ev.beg j => some j | _ => none)

/-- Execution events: a job's task began / settled. -/
inductive ExecEv where
  | beg (j : Job)
  | fin (j : Job)
  deriving DecidableEq, Repr

/-- The begin/settle subsequence of a trace. -/
def execOf (tr : List Ev) : List ExecEv :=
  tr.filterMap (fun e => match e with
    | Ev.beg j => some (ExecEv.beg j)
    | Ev.fin j _ => some (ExecEv.fin j)
    | _ => none)

/-- A fully serialized execution record: a sequence of begin/settle pairs,
each settle matching the begin directly before it. -/
inductive Paired : List ExecEv → Prop where
  | nil : Paired []
  | pair (j : Job) {rest : List ExecEv} :
      Paired rest → Paired (ExecEv.beg j :: ExecEv.fin j :: rest)

/-- A serialized execution record that may end in one still-open job:
begin/settle pairs, optionally followed by a final unmatched begin.  This is
what "no two execution intervals overlap" means on a finite trace. -/
inductive Serialized : List ExecEv → Prop where
  | nil : Serialized []
  | single (j : Job) : Serialized [ExecEv.beg j]
  | pair (j : Job) {rest : List ExecEv} :
      Serialized rest → Serialized (ExecEv.beg j :: ExecEv.fin j :: rest)

/-- Relation between the worker state and the execution record so far. -/
def ExecInv : Option Worker → List ExecEv → Prop
  | some (Worker.awaiting j), l => ∃ d, l = d ++ [ExecEv.beg j] ∧ Paired d
  | _, l => Paired l

/-- The running job (if any) followed by the queued jobs: every job that has
begun but not settled, or not begun yet. -/
def jobList (cfg : Config) : List Job :=
  (match cfg.worker with
   | some (Worker.awaiting j) => [j]
   | _ => []) ++ cfg.pending

/-- `segments.find(s => s.id === i)`. -/
def findSeg (l : List Segment) (i : Nat) : Option Segment :=
  l.find? (fun s => s.id == i)

/-- Lookup of a combination record by id. -/
def findComb (l : List Combination) (i : Nat) : Option Combination :=
  l.find? (fun c => c.id == i)

/-- Inductive invariant of the reachable configurations. -/
structure SysInv (cfg : Config) (tr : List Ev) : Prop where
  flagWorker : cfg.flag = cfg.worker.isSome
  pendingIdle : cfg.worker = none → cfg.pending = []
  enqSplit : enqsOf tr = begsOf tr ++ cfg.pending
  execShape : ExecInv cfg.worker (execOf tr)
  jobSegs : ∀ j ∈ jobList cfg,
    (findSeg cfg.segments j.hookId).isSome ∧
    (findSeg cfg.segments j.storyId).isSome ∧
    (findSeg cfg.segments j.ctaId).isSome
  jobComb : ∀ j ∈ jobList cfg,
    ∃ c, findComb cfg.combinations j.combId = some c ∧ c.status = Status.processing
  jobIdsNodup : ((jobList cfg).map Job.combId).Nodup
  jobIdsLt : ∀ j ∈ jobList cfg, j.combId < cfg.nextId
  combIdsNodup : (cfg.combinations.map Combination.id).Nodup
  combIdsLt : ∀ c ∈ cfg.combinations, c.id < cfg.nextId

/-! ### Concrete scenario values used to exercise the theorems -/

/-- A concrete segment store with one segment per pool (§8's scenario shape). -/
def segsW : List Segment :=
  [{ id := 0, file := "h.mp4", type := SegType.hook, previewUrl := "/uploads/h.mp4" },
   { id := 1, file := "s.mp4", type := SegType.story, previewUrl := "/uploads/s.mp4" },
   { id := 2, file := "c.mp4", type := SegType.cta, previewUrl := "/uploads/c.mp4" }]

/-- Result of a first concrete generate call on `segsW` with an empty store. -/
def genW1 : GenOut :=
  match generateFn segsW [] 3 with
  | Except.ok out => out
  | Except.error _ => { newCombs := [], newJobs := [], combinations := [], nextId := 0 }

/-- Result of a second generate call on the store left by the first. -/
def genW2 : GenOut :=
  match generateFn segsW genW1.combinations genW1.nextId with
  | Except.ok out => out
  | Except.error _ => { newCombs := [], newJobs := [], combinations := [], nextId := 0 }

/-- Response of a generate call on `segsW` against an empty file system: the
worker starts the head job synchronously, its input checks throw, and the
head record is already `error` at response time. -/
def genW3resp : List Combination :=
  match generateResponse segsW [] 3 [] false (fun _ => none) with
  | Except.ok r => r
  | Except.error _ => []

/-- A file system on which the three `segsW` media files are readable. -/
def fsInW : FS :=
  fun p => if p = "h.mp4" ∨ p = "s.mp4" ∨ p = "c.mp4" then some 10 else none

/-- `fsInW` after a subprocess run that wrote a non-empty output artifact. -/
def fsOutW : FS :=
  fun p => if p = combPath 3 then some 1024 else fsInW p

/-- The job of the first combination generated from `segsW`. -/
def jW : Job := { combId := 3, hookId := 0, storyId := 1, ctaId := 2 }

/-- Configuration after uploading one segment per pool. -/
def cfgU : Config :=
  uploadFn (uploadFn (uploadFn initConfig SegType.hook "h.mp4" "/uploads/h.mp4")
    SegType.story "s.mp4" "/uploads/s.mp4") SegType.cta "c.mp4" "/uploads/c.mp4"

/-- Trace of the three uploads. -/
def trU : List Ev := [Ev.upload 0, Ev.upload 1, Ev.upload 2]

/-- Configuration after a generate request on `cfgU`: the single combination's
job has been enqueued and its task immediately begun by the fresh worker. -/
def cfgG : Config := (genStep cfgU).1

/-- Trace after the generate request. -/
def trG : List Ev := trU ++ (genStep cfgU).2

/-! ### Helper lemmas about list lookups -/

theorem find?_isSome_append {α : Type} (p : α → Bool) (l₁ l₂ : List α)
    (h : (l₁.find? p).isSome) : ((l₁ ++ l₂).find? p).isSome := by
  rw [List.find?_append]
  cases hh : l₁.find? p with
  | none => rw [hh] at h; simp at h
  | some a => simp [hh, Option.or]

theorem find?_append_left {α : Type} (p : α → Bool) (l₁ l₂ : List α) (a : α)
    (h : l₁.find? p = some a) : (l₁ ++ l₂).find? p = some a := by
  rw [List.find?_append, h]; rfl

theorem find?_append_right {α : Type} (p : α → Bool) (l₁ l₂ : List α)
    (h : l₁.find? p = none) : (l₁ ++ l₂).find? p = l₂.find? p := by
  rw [List.find?_append, h]; rfl

theorem findComb_none_of_lt (l : List Combination) (i m : Nat)
    (hlt : ∀ c ∈ l, c.id < m) (hi : m ≤ i) : findComb l i = none := by
  unfold findComb
  induction l with
  | nil => rfl
  | cons c rest ih =>
    have hc := hlt c (by simp)
    have : (c.id == i) = false := by
      simp only [beq_eq_false_iff_ne]; omega
    simp only [List.find?, this]
    exact ih (fun x hx => hlt x (by simp [hx]))

/-! ### Characterization of the nested generation loops -/

theorem ctaLoop_counter (h s : Segment) (ctas : List Segment) (n : Nat) :
    (ctaLoop h s ctas n).2.2 = n + ctas.length := by
  induction ctas generalizing n with
  | nil => simp [ctaLoop]
  | cons c rest ih => simp [ctaLoop, ih]; omega

theorem ctaLoop_proj (h s : Segment) (ctas : List Segment) (n : Nat) :
    (ctaLoop h s ctas n).1.map (fun cb => (cb.hook, cb.story, cb.cta))
      = ctas.map (fun c => (h.id, s.id, c.id)) := by
  induction ctas generalizing n with
  | nil => simp [ctaLoop]
  | cons c rest ih => simp [ctaLoop, ih]

theorem ctaLoop_jobs (h s : Segment) (ctas : List Segment) (n : Nat) :
    (ctaLoop h s ctas n).2.1 = (ctaLoop h s ctas n).1.map combToJob := by
  induction ctas generalizing n with
  | nil => simp [ctaLoop]
  | cons c rest ih => simp [ctaLoop, ih]

theorem ctaLoop_mem (h s : Segment) (ctas : List Segment) (n : Nat) :
    ∀ cb ∈ (ctaLoop h s ctas n).1,
      cb.status = Status.processing ∧ cb.downloadUrl = none ∧
      cb.hook = h.id ∧ cb.story = s.id ∧ cb.cta ∈ ctas.map Segment.id ∧
      n ≤ cb.id ∧ cb.id < n + ctas.length := by
  induction ctas generalizing n with
  | nil => simp [ctaLoop]
  | cons c rest ih =>
    intro cb hcb
    simp only [ctaLoop, List.mem_cons] at hcb
    rcases hcb with rfl | hcb
    · refine ⟨rfl, rfl, rfl, rfl, by simp, by simp, by simp⟩
    · obtain ⟨h1, h2, h3, h4, h5, h6, h7⟩ := ih (n + 1) cb hcb
      refine ⟨h1, h2, h3, h4, by simp [h5], by omega, by simp; omega⟩

theorem ctaLoop_ids_pairwise (h s : Segment) (ctas : List Segment) (n : Nat) :
    ((ctaLoop h s ctas n).1.map Combination.id).Pairwise (· < ·) := by
  induction ctas generalizing n with
  | nil => simp [ctaLoop]
  | cons c rest ih =>
    simp only [ctaLoop, List.map_cons, List.pairwise_cons]
    constructor
    · intro i hi
      simp only [List.mem_map] at hi
      obtain ⟨cb, hcb, rfl⟩ := hi
      have := (ctaLoop_mem h s rest (n + 1) cb hcb).2.2.2.2.2.1
      omega
    · exact ih (n + 1)

theorem storyLoop_counter (h : Segment) (ctas stories : List Segment) (n : Nat) :
    (storyLoop h ctas stories n).2.2 = n + stories.length * ctas.length := by
  induction stories generalizing n with
  | nil => simp [storyLoop]
  | cons s rest ih =>
    simp only [storyLoop, ih, ctaLoop_counter, List.length_cons]
    ring

theorem storyLoop_proj (h : Segment) (ctas stories : List Segment) (n : Nat) :
    (storyLoop h ctas stories n).1.map (fun cb => (cb.hook, cb.story, cb.cta))
      = stories.flatMap (fun s => ctas.map (fun c => (h.id, s.id, c.id))) := by
  induction stories generalizing n with
  | nil => simp [storyLoop]
  | cons s rest ih =>
    simp [storyLoop, List.map_append, ctaLoop_proj, ih]

theorem storyLoop_jobs (h : Segment) (ctas stories : List Segment) (n : Nat) :
    (storyLoop h ctas stories n).2.1 = (storyLoop h ctas stories n).1.map combToJob := by
  induction stories generalizing n with
  | nil => simp [storyLoop]
  | cons s rest ih =>
    simp [storyLoop, List.map_append, ctaLoop_jobs, ih]

theorem storyLoop_mem (h : Segment) (ctas stories : List Segment) (n : Nat) :
    ∀ cb ∈ (storyLoop h ctas stories n).1,
      cb.status = Status.processing ∧ cb.downloadUrl = none ∧
      cb.hook = h.id ∧ cb.story ∈ stories.map Segment.id ∧ cb.cta ∈ ctas.map Segment.id ∧
      n ≤ cb.id ∧ cb.id < n + stories.length * ctas.length := by
  induction stories generalizing n with
  | nil => simp [storyLoop]
  | cons s rest ih =>
    intro cb hcb
    simp only [storyLoop, List.mem_append] at hcb
    rcases hcb with hcb | hcb
    · obtain ⟨h1, h2, h3, h4, h5, h6, h7⟩ := ctaLoop_mem h s ctas n cb hcb
      refine ⟨h1, h2, h3, by simp [h4], h5, h6, ?_⟩
      simp only [List.length_cons, Nat.add_mul, Nat.one_mul]
      omega
    · obtain ⟨h1, h2, h3, h4, h5, h6, h7⟩ := ih ((ctaLoop h s ctas n).2.2) cb hcb
      rw [ctaLoop_counter] at h6 h7
      refine ⟨h1, h2, h3, by rw [List.map_cons]; exact List.mem_cons_of_mem _ h4, h5,
        by omega, ?_⟩
      simp only [List.length_cons, Nat.add_mul, Nat.one_mul]
      omega

theorem storyLoop_ids_pairwise (h : Segment) (ctas stories : List Segment) (n : Nat) :
    ((storyLoop h ctas stories n).1.map Combination.id).Pairwise (· < ·) := by
  induction stories generalizing n with
  | nil => simp [storyLoop]
  | cons s rest ih =>
    simp only [storyLoop, List.map_append]
    rw [List.pairwise_append]
    refine ⟨ctaLoop_ids_pairwise h s ctas n, ih _, ?_⟩
    intro a ha b hb
    simp only [List.mem_map] at ha hb
    obtain ⟨ca, hca, rfl⟩ := ha
    obtain ⟨cb, hcb, rfl⟩ := hb
    have h1 := (ctaLoop_mem h s ctas n ca hca).2.2.2.2.2.2
    have h2 := (storyLoop_mem h ctas rest _ cb hcb).2.2.2.2.2.1
    rw [ctaLoop_counter] at h2
    omega

theorem hookLoop_counter (stories ctas hooks : List Segment) (n : Nat) :
    (hookLoop stories ctas hooks n).2.2 = n + hooks.length * (stories.length * ctas.length) := by
  induction hooks generalizing n with
  | nil => simp [hookLoop]
  | cons h rest ih =>
    simp only [hookLoop, ih, storyLoop_counter, List.length_cons]
    ring

theorem hookLoop_proj (stories ctas hooks : List Segment) (n : Nat) :
    (hookLoop stories ctas hooks n).1.map (fun cb => (cb.hook, cb.story, cb.cta))
      = hooks.flatMap (fun h => stories.flatMap (fun s => ctas.map (fun c => (h.id, s.id, c.id)))) := by
  induction hooks generalizing n with
  | nil => simp [hookLoop]
  | cons h rest ih =>
    simp [hookLoop, List.map_append, storyLoop_proj, ih]

theorem hookLoop_jobs (stories ctas hooks : List Segment) (n : Nat) :
    (hookLoop stories ctas hooks n).2.1 = (hookLoop stories ctas hooks n).1.map combToJob := by
  induction hooks generalizing n with
  | nil => simp [hookLoop]
  | cons h rest ih =>
    simp [hookLoop, List.map_append, storyLoop_jobs, ih]

theorem hookLoop_mem (stories ctas hooks : List Segment) (n : Nat) :
    ∀ cb ∈ (hookLoop stories ctas hooks n).1,
      cb.status = Status.processing ∧ cb.downloadUrl = none ∧
      cb.hook ∈ hooks.map Segment.id ∧ cb.story ∈ stories.map Segment.id ∧
      cb.cta ∈ ctas.map Segment.id ∧
      n ≤ cb.id ∧ cb.id < n + hooks.length * (stories.length * ctas.length) := by
  induction hooks generalizing n with
  | nil => simp [hookLoop]
  | cons h rest ih =>
    intro cb hcb
    simp only [hookLoop, List.mem_append] at hcb
    rcases hcb with hcb | hcb
    · obtain ⟨h1, h2, h3, h4, h5, h6, h7⟩ := storyLoop_mem h ctas stories n cb hcb
      refine ⟨h1, h2, by simp [h3], h4, h5, h6, ?_⟩
      simp only [List.length_cons, Nat.add_mul, Nat.one_mul]
      omega
    · obtain ⟨h1, h2, h3, h4, h5, h6, h7⟩ := ih ((storyLoop h ctas stories n).2.2) cb hcb
      rw [storyLoop_counter] at h6 h7
      refine ⟨h1, h2, by rw [List.map_cons]; exact List.mem_cons_of_mem _ h3, h4, h5,
        by omega, ?_⟩
      simp only [List.length_cons, Nat.add_mul, Nat.one_mul]
      omega

theorem hookLoop_ids_pairwise (stories ctas hooks : List Segment) (n : Nat) :
    ((hookLoop stories ctas hooks n).1.map Combination.id).Pairwise (· < ·) := by
  induction hooks generalizing n with
  | nil => simp [hookLoop]
  | cons h rest ih =>
    simp only [hookLoop, List.map_append]
    rw [List.pairwise_append]
    refine ⟨storyLoop_ids_pairwise h ctas stories n, ih _, ?_⟩
    intro a ha b hb
    simp only [List.mem_map] at ha hb
    obtain ⟨ca, hca, rfl⟩ := ha
    obtain ⟨cb, hcb, rfl⟩ := hb
    have h1 := (storyLoop_mem h ctas stories n ca hca).2.2.2.2.2.2
    have h2 := (hookLoop_mem stories ctas rest _ cb hcb).2.2.2.2.2.1
    rw [storyLoop_counter] at h2
    omega

theorem tripleProd_len (hid : Nat) (stories ctas : List Segment) :
    (stories.flatMap (fun s => ctas.map (fun c => (hid, s.id, c.id)))).length
      = stories.length * ctas.length := by
  induction stories with
  | nil => simp
  | cons s rest ih =>
    simp only [List.flatMap_cons, List.length_append, List.length_map, ih, List.length_cons]
    ring

theorem hookLoop_len (stories ctas hooks : List Segment) (n : Nat) :
    (hookLoop stories ctas hooks n).1.length = hooks.length * (stories.length * ctas.length) := by
  have hmap := congrArg List.length (hookLoop_proj stories ctas hooks n)
  simp only [List.length_map] at hmap
  rw [hmap]
  clear hmap
  induction hooks with
  | nil => simp
  | cons h rest ih =>
    simp only [List.flatMap_cons, List.length_append, tripleProd_len, ih, List.length_cons]
    ring

/-! ### Inversion of the generate handler -/

theorem isEmpty_false_ne_nil {α : Type} {l : List α} (h : l.isEmpty = false) : l ≠ [] := by
  intro hnil
  rw [hnil] at h
  simp at h

theorem generateFn_ok (segs : List Segment) (combos : List Combination) (n : Nat) (out : GenOut)
    (h : generateFn segs combos n = Except.ok out) :
    segs.filter isHook ≠ [] ∧ segs.filter isStory ≠ [] ∧ segs.filter isCta ≠ [] ∧
    out.newCombs = (hookLoop (segs.filter isStory) (segs.filter isCta) (segs.filter isHook) n).1 ∧
    out.newJobs = out.newCombs.map combToJob ∧
    out.combinations = combos ++ out.newCombs ∧
    out.nextId = n + (segs.filter isHook).length *
      ((segs.filter isStory).length * (segs.filter isCta).length) := by
  simp only [generateFn] at h
  cases hH : (segs.filter isHook).isEmpty with
  | true => rw [hH] at h; simp at h
  | false =>
  cases hS : (segs.filter isStory).isEmpty with
  | true => rw [hH, hS] at h; simp at h
  | false =>
  cases hC : (segs.filter isCta).isEmpty with
  | true => rw [hH, hS, hC] at h; simp at h
  | false =>
    rw [hH, hS, hC] at h
    simp only [Bool.or_self, Bool.or_false, Bool.false_or, if_neg, Bool.false_eq_true,
      not_false_iff, reduceIte, Except.ok.injEq] at h
    subst h
    refine ⟨isEmpty_false_ne_nil hH, isEmpty_false_ne_nil hS, isEmpty_false_ne_nil hC,
      rfl, ?_, rfl, ?_⟩
    · exact hookLoop_jobs _ _ _ _
    · exact hookLoop_counter _ _ _ _

/-! ### Claims about the Combination Generator -/

/-- C1: for every segment store whose three pools are non-empty, with sizes
h, s and c, one generate call succeeds and creates exactly h·s·c new
combination records, each referencing one segment of each pool, all with
initial status `processing`, appended to the combination store in nested
enumeration order (hooks outer, stories middle, ctas inner), with exactly
one queued job per new record, in the same order. -/
theorem c1_generate_cartesian_product (segs : List Segment) (combos : List Combination)
    (n : Nat) (hh : segs.filter isHook ≠ []) (hs : segs.filter isStory ≠ [])
    (hc : segs.filter isCta ≠ []) :
    ∃ out, generateFn segs combos n = Except.ok out ∧
      out.newCombs.length = (segs.filter isHook).length *
        ((segs.filter isStory).length * (segs.filter isCta).length) ∧
      out.combinations = combos ++ out.newCombs ∧
      (∀ cb ∈ out.newCombs, cb.status = Status.processing) ∧
      out.newCombs.map (fun cb => (cb.hook, cb.story, cb.cta))
        = (segs.filter isHook).flatMap (fun h =>
            (segs.filter isStory).flatMap (fun s =>
              (segs.filter isCta).map (fun c => (h.id, s.id, c.id)))) ∧
      (∀ cb ∈ out.newCombs,
        cb.hook ∈ (segs.filter isHook).map Segment.id ∧
        cb.story ∈ (segs.filter isStory).map Segment.id ∧
        cb.cta ∈ (segs.filter isCta).map Segment.id) ∧
      out.newJobs = out.newCombs.map combToJob := by
  have eH : (segs.filter isHook).isEmpty = false := by
    cases hE : (segs.filter isHook).isEmpty
    · rfl
    · exact absurd (List.isEmpty_iff.mp hE) hh
  have eS : (segs.filter isStory).isEmpty = false := by
    cases hE : (segs.filter isStory).isEmpty
    · rfl
    · exact absurd (List.isEmpty_iff.mp hE) hs
  have eC : (segs.filter isCta).isEmpty = false := by
    cases hE : (segs.filter isCta).isEmpty
    · rfl
    · exact absurd (List.isEmpty_iff.mp hE) hc
  obtain ⟨out, hout⟩ : ∃ out, generateFn segs combos n = Except.ok out := by
    simp only [generateFn, eH, eS, eC, Bool.or_self, Bool.or_false]
    exact ⟨_, rfl⟩
  obtain ⟨_, _, _, hNC, hNJ, hComb, _⟩ := generateFn_ok segs combos n out hout
  refine ⟨out, hout, ?_, hComb, ?_, ?_, ?_, hNJ⟩
  · rw [hNC, hookLoop_len]
  · intro cb hcb
    rw [hNC] at hcb
    exact (hookLoop_mem _ _ _ _ cb hcb).1
  · rw [hNC, hookLoop_proj]
  · intro cb hcb
    rw [hNC] at hcb
    obtain ⟨_, _, h3, h4, h5, _, _⟩ := hookLoop_mem _ _ _ _ cb hcb
    exact ⟨h3, h4, h5⟩

/-- Witness for C1 at a concrete store with one segment per pool. -/
theorem c1_generate_cartesian_product_witness :
    ∃ out, generateFn segsW [] 3 = Except.ok out ∧ out.newCombs.length = 1 ∧
      (∀ cb ∈ out.newCombs, cb.status = Status.processing) ∧
      out.newJobs = out.newCombs.map combToJob := by
  obtain ⟨out, h1, h2, _, h4, _, _, h7⟩ :=
    c1_generate_cartesian_product segsW [] 3 (by decide) (by decide) (by decide)
  exact ⟨out, h1, by simpa using h2, h4, h7⟩

/-- C4: when one of the pools is empty at generation time, the generate
handler rejects with the missing-inputs condition and performs no mutation:
the whole configuration (both stores and the queue) is unchanged and no
event is emitted. -/
theorem c4_empty_pool_rejects (cfg : Config)
    (h : cfg.segments.filter isHook = [] ∨ cfg.segments.filter isStory = [] ∨
      cfg.segments.filter isCta = []) :
    generateFn cfg.segments cfg.combinations cfg.nextId = Except.error GenErr.missingInputs ∧
    genStep cfg = (cfg, []) := by
  have hfn : generateFn cfg.segments cfg.combinations cfg.nextId
      = Except.error GenErr.missingInputs := by
    simp only [generateFn]
    rcases h with h | h | h <;> simp [h]
  exact ⟨hfn, by simp only [genStep, hfn]⟩

/-- Witness for C4 at the initial (empty) configuration. -/
theorem c4_empty_pool_rejects_witness :
    generateFn initConfig.segments initConfig.combinations initConfig.nextId
      = Except.error GenErr.missingInputs ∧ genStep initConfig = (initConfig, []) :=
  c4_empty_pool_rejects initConfig (Or.inl rfl)

/-! ### Claims about the Compositor Adapter and the job closure -/

/-- C6, documenting the defect: with every input readable, ffmpeg exiting
with code 0 and the destination written with non-zero size — exactly the
situation the claim calls success — `processVideoCombination` (third
variant) still rejects, because its output verification calls
`fs.promises.stat` on the default import of node:fs/promises, which has no
`promises` property, so the verification throws on every invocation and the
close handler's catch rejects the promise. -/
theorem c6_exit_zero_success_path_rejects :
    fsOutW (combPath 3) = some 1024 ∧
    (processVideoCombinationV3 fsInW ["h.mp4", "s.mp4", "c.mp4"] (combPath 3)
        (SpawnOutcome.closed 0 fsOutW)).result
      = Except.error (PvcErr.verifyFailed
          "TypeError: Cannot read properties of undefined (reading stat)") :=
  ⟨rfl, rfl⟩

/-- C7: every invocation of `processVideoCombination` (third variant) checks
all inputs for presence and readability before the subprocess is spawned:
ffmpeg is spawned iff every input is readable, and when some input is
missing the invocation fails with the input-not-found error for a missing
input without ever spawning the subprocess. -/
theorem c7_inputs_validated_before_spawn (fs : FS) (ins : List String)
    (out : String) (spawn : SpawnOutcome) :
    ((processVideoCombinationV3 fs ins out spawn).spawned = true ↔
      ∀ f ∈ ins, (fs f).isSome = true) ∧
    ((∃ f ∈ ins, fs f = none) →
      (processVideoCombinationV3 fs ins out spawn).spawned = false ∧
      ∃ f ∈ ins, fs f = none ∧
        (processVideoCombinationV3 fs ins out spawn).result
          = Except.error (PvcErr.inputNotFound f)) := by
  unfold processVideoCombinationV3
  cases hf : ins.find? (fun f => (fs f).isNone) with
  | none =>
    have hall : ∀ f ∈ ins, (fs f).isSome = true := by
      intro f hfin
      have hnp := List.find?_eq_none.mp hf f hfin
      cases hfs : fs f
      · rw [hfs] at hnp; simp at hnp
      · rfl
    constructor
    · constructor
      · intro _
        exact hall
      · intro _
        cases spawn <;> rfl
    · rintro ⟨f, hfin, hnone⟩
      have := hall f hfin
      rw [hnone] at this
      simp at this
  | some f =>
    have hpf : (fs f).isNone = true := by
      have := List.find?_some hf
      simpa using this
    have hfin : f ∈ ins := List.mem_of_find?_eq_some hf
    have hnone : fs f = none := Option.isNone_iff_eq_none.mp hpf
    constructor
    · constructor
      · intro hcontra
        simp at hcontra
      · intro hall
        have := hall f hfin
        rw [hnone] at this
        simp at this
    · intro _
      exact ⟨rfl, f, hfin, hnone, rfl⟩

/-- Witness for C7: one missing input on an empty file system. -/
theorem c7_inputs_validated_before_spawn_witness :
    (processVideoCombinationV3 (fun _ => none) ["a.mp4"] (combPath 0)
        (SpawnOutcome.timedOut (fun _ => none))).spawned = false ∧
    ∃ f ∈ ["a.mp4"], (fun _ => none : FS) f = none ∧
      (processVideoCombinationV3 (fun _ => none) ["a.mp4"] (combPath 0)
        (SpawnOutcome.timedOut (fun _ => none))).result
        = Except.error (PvcErr.inputNotFound f) :=
  (c7_inputs_validated_before_spawn (fun _ => none) ["a.mp4"] (combPath 0)
    (SpawnOutcome.timedOut (fun _ => none))).2 ⟨"a.mp4", by simp, rfl⟩

theorem jobCatch_removes_output (fs : FS) (p : String) : (jobCatch fs p).fs p = none := by
  simp only [jobCatch]
  cases hfs : fs p with
  | none => simp [hfs]
  | some v => simp [hfs, eraseFile]

theorem runJob_shape (segments : List Segment) (fs : FS) (j : Job) (pvc : PvcBeh) :
    (runJob segments fs j pvc).status = Status.ready ∨
    ∃ fs', runJob segments fs j pvc = jobCatch fs' (combPath j.combId) := by
  simp only [runJob]
  split
  · split
    · split
      · split
        · left; rfl
        · right; exact ⟨_, rfl⟩
      · right; exact ⟨_, rfl⟩
    · right; exact ⟨_, rfl⟩
  · right; exact ⟨_, rfl⟩

/-- C8: on every failure path of the job closure (failed segment lookup,
missing input file, rejected compositor call, missing output), the catch
clause leaves no artifact at the job's destination path: whenever the
combination ends in status `error`, the destination path is absent from the
resulting file system. -/
theorem c8_failed_job_leaves_no_artifact (segments : List Segment) (fs : FS) (j : Job)
    (pvc : PvcBeh) (h : (runJob segments fs j pvc).status = Status.error) :
    (runJob segments fs j pvc).fs (combPath j.combId) = none := by
  rcases runJob_shape segments fs j pvc with hr | ⟨fs', he⟩
  · rw [h] at hr
    cases hr
  · rw [he]
    exact jobCatch_removes_output fs' _
/-- Witness for C8: a job whose input files are all missing. -/
theorem c8_failed_job_leaves_no_artifact_witness :
    (runJob segsW (fun _ => none) jW { resolves := false, fsAfter := fun _ => none }).fs
      (combPath jW.combId) = none :=
  c8_failed_job_leaves_no_artifact segsW (fun _ => none) jW
    { resolves := false, fsAfter := fun _ => none } rfl

/-! ### Trace bookkeeping -/

theorem enqsOf_append (a b : List Ev) : enqsOf (a ++ b) = enqsOf a ++ enqsOf b :=
  List.filterMap_append a b _

theorem begsOf_append (a b : List Ev) : begsOf (a ++ b) = begsOf a ++ begsOf b :=
  List.filterMap_append a b _

theorem execOf_append (a b : List Ev) : execOf (a ++ b) = execOf a ++ execOf b :=
  List.filterMap_append a b _

theorem enqsOf_map_enq (js : List Job) : enqsOf (js.map Ev.enq) = js := by
  induction js with
  | nil => rfl
  | cons j rest ih => simpa [enqsOf] using ih

theorem begsOf_map_enq (js : List Job) : begsOf (js.map Ev.enq) = [] := by
  induction js with
  | nil => rfl
  | cons j rest ih => simp [begsOf]

theorem execOf_map_enq (js : List Job) : execOf (js.map Ev.enq) = [] := by
  induction js with
  | nil => rfl
  | cons j rest ih => simp [execOf]

theorem paired_serialized {l : List ExecEv} (h : Paired l) : Serialized l := by
  induction h with
  | nil => exact Serialized.nil
  | pair j hrest ih => exact Serialized.pair j ih

theorem paired_append_pair {d : List ExecEv} (j : Job) (h : Paired d) :
    Paired (d ++ [ExecEv.beg j, ExecEv.fin j]) := by
  induction h with
  | nil => exact Paired.pair j Paired.nil
  | pair k hrest ih => exact Paired.pair k ih

theorem serialized_append_beg {d : List ExecEv} (j : Job) (h : Paired d) :
    Serialized (d ++ [ExecEv.beg j]) := by
  induction h with
  | nil => exact Serialized.single j
  | pair k hrest ih => exact Serialized.pair k ih

/-! ### Lookup and update lemmas for the stores -/

theorem findSeg_isSome_of_id_mem (segs : List Segment) (i : Nat)
    (h : ∃ x ∈ segs, x.id = i) : (findSeg segs i).isSome = true := by
  unfold findSeg
  rw [List.find?_isSome]
  obtain ⟨x, hx, hxi⟩ := h
  exact ⟨x, hx, by rw [beq_iff_eq]; exact hxi⟩

theorem find?_id_of_nodup (l : List Combination) (cb : Combination) (hmem : cb ∈ l)
    (hnd : (l.map Combination.id).Nodup) : l.find? (fun c => c.id == cb.id) = some cb := by
  induction l with
  | nil => cases hmem
  | cons c rest ih =>
    rw [List.map_cons, List.nodup_cons] at hnd
    obtain ⟨hnotin, hnd'⟩ := hnd
    rcases List.mem_cons.mp hmem with rfl | hmem'
    · exact List.find?_cons_of_pos rest (by simp)
    · have hne : (c.id == cb.id) ≠ true := by
        intro he
        have hce : c.id = cb.id := beq_iff_eq.mp he
        exact hnotin (hce ▸ List.mem_map_of_mem Combination.id hmem')
      rw [List.find?_cons_of_neg rest hne]
      exact ih hmem' hnd'

theorem findComb_append_new (combos nc : List Combination) (n : Nat) (cb : Combination)
    (hold : ∀ c ∈ combos, c.id < n) (hcb : cb ∈ nc) (hge : n ≤ cb.id)
    (hnd : (nc.map Combination.id).Nodup) :
    findComb (combos ++ nc) cb.id = some cb := by
  unfold findComb
  have h1 : findComb combos cb.id = none := findComb_none_of_lt combos cb.id n hold hge
  unfold findComb at h1
  rw [List.find?_append, h1]
  simpa using find?_id_of_nodup nc cb hcb hnd

theorem applyOutcome_id (c : Combination) (j : Job) (o : Outcome) :
    (applyOutcome c j o).id = c.id := by
  cases o <;> rfl

theorem findComb_update_ne (l : List Combination) (j : Job) (o : Outcome) (i : Nat)
    (hne : i ≠ j.combId) :
    findComb (l.map (fun c => if c.id = j.combId then applyOutcome c j o else c)) i
      = findComb l i := by
  induction l with
  | nil => rfl
  | cons c rest ih =>
    have hid : (if c.id = j.combId then applyOutcome c j o else c).id = c.id := by
      split
      · exact applyOutcome_id _ _ _
      · rfl
    unfold findComb at ih ⊢
    simp only [List.map_cons]
    cases hpi : (c.id == i) with
    | true =>
      have hceq : c.id = i := beq_iff_eq.mp hpi
      have hcne : ¬(c.id = j.combId) := fun hcj => hne (hceq ▸ hcj)
      rw [if_neg hcne]
      simp only [List.find?_cons, hpi]
    | false =>
      simp only [List.find?_cons, hid, hpi]
      exact ih

theorem update_map_ids (l : List Combination) (j : Job) (o : Outcome) :
    (l.map (fun c => if c.id = j.combId then applyOutcome c j o else c)).map Combination.id
      = l.map Combination.id := by
  rw [List.map_map]
  apply List.map_eq_map_iff.mpr
  intro c hc
  simp only [Function.comp_apply]
  split
  · exact applyOutcome_id _ _ _
  · rfl

theorem findComb_mem (l : List Combination) (i : Nat) (c : Combination)
    (h : findComb l i = some c) : c ∈ l ∧ c.id = i := by
  unfold findComb at h
  refine ⟨List.mem_of_find?_eq_some h, ?_⟩
  have := List.find?_some h
  exact beq_iff_eq.mp this

theorem jobList_eq_awaiting (cfg : Config) (j : Job)
    (hw : cfg.worker = some (Worker.awaiting j)) : jobList cfg = j :: cfg.pending := by
  unfold jobList
  rw [hw]
  rfl

theorem jobList_eq_delaying (cfg : Config) (hw : cfg.worker = some Worker.delaying) :
    jobList cfg = cfg.pending := by
  unfold jobList
  rw [hw]
  rfl

theorem jobList_eq_none (cfg : Config) (hw : cfg.worker = none) :
    jobList cfg = cfg.pending := by
  unfold jobList
  rw [hw]
  rfl

/-! ### Preservation of the invariant -/

theorem enqsOf_single_upload (n : Nat) : enqsOf [Ev.upload n] = [] := rfl
theorem begsOf_single_upload (n : Nat) : begsOf [Ev.upload n] = [] := rfl
theorem execOf_single_upload (n : Nat) : execOf [Ev.upload n] = [] := rfl
theorem enqsOf_single_beg (j : Job) : enqsOf [Ev.beg j] = [] := rfl
theorem begsOf_single_beg (j : Job) : begsOf [Ev.beg j] = [j] := rfl
theorem execOf_single_beg (j : Job) : execOf [Ev.beg j] = [ExecEv.beg j] := rfl
theorem enqsOf_single_fin (j : Job) (o : Outcome) : enqsOf [Ev.fin j o] = [] := rfl
theorem begsOf_single_fin (j : Job) (o : Outcome) : begsOf [Ev.fin j o] = [] := rfl
theorem execOf_single_fin (j : Job) (o : Outcome) : execOf [Ev.fin j o] = [ExecEv.fin j] := rfl

theorem findSeg_append (l₁ l₂ : List Segment) (i : Nat)
    (h : (findSeg l₁ i).isSome) : (findSeg (l₁ ++ l₂) i).isSome :=
  find?_isSome_append _ l₁ l₂ h

theorem inv_upload (cfg : Config) (tr : List Ev) (ty : SegType) (file url : String)
    (hI : SysInv cfg tr) :
    SysInv (uploadFn cfg ty file url) (tr ++ [Ev.upload cfg.nextId]) := by
  obtain ⟨f1, f2, f3, f4, f5, f6, f7, f8, f9, f10⟩ := hI
  refine ⟨f1, f2, ?_, ?_, ?_, f6, f7, ?_, f9, ?_⟩
  · rw [enqsOf_append, begsOf_append, enqsOf_single_upload, begsOf_single_upload,
      List.append_nil, List.append_nil]
    exact f3
  · show ExecInv cfg.worker (execOf (tr ++ [Ev.upload cfg.nextId]))
    rw [execOf_append, execOf_single_upload, List.append_nil]
    exact f4
  · intro j hj
    obtain ⟨ha, hb, hc⟩ := f5 j hj
    exact ⟨findSeg_append _ _ _ ha, findSeg_append _ _ _ hb, findSeg_append _ _ _ hc⟩
  · intro j hj
    have := f8 j hj
    show j.combId < cfg.nextId + 1
    omega
  · intro c hc
    have := f10 c hc
    show c.id < cfg.nextId + 1
    omega

theorem inv_finish (cfg : Config) (tr : List Ev) (j : Job) (o : Outcome)
    (hw : cfg.worker = some (Worker.awaiting j)) (hI : SysInv cfg tr) :
    SysInv (finishFn cfg j o) (tr ++ [Ev.fin j o]) := by
  obtain ⟨f1, f2, f3, f4, f5, f6, f7, f8, f9, f10⟩ := hI
  have hjl : jobList cfg = j :: cfg.pending := jobList_eq_awaiting cfg j hw
  have hjl' : jobList (finishFn cfg j o) = cfg.pending := by
    unfold jobList finishFn
    rfl
  have hnd7 : j.combId ∉ cfg.pending.map Job.combId ∧ (cfg.pending.map Job.combId).Nodup := by
    rw [hjl] at f7
    exact List.nodup_cons.mp (by simpa using f7)
  refine ⟨?_, ?_, ?_, ?_, ?_, ?_, ?_, ?_, ?_, ?_⟩
  · show cfg.flag = (some Worker.delaying).isSome
    rw [f1, hw]
    rfl
  · intro hnone
    exact Option.noConfusion hnone
  · rw [enqsOf_append, begsOf_append, enqsOf_single_fin, begsOf_single_fin,
      List.append_nil, List.append_nil]
    exact f3
  · show Paired (execOf (tr ++ [Ev.fin j o]))
    rw [execOf_append, execOf_single_fin]
    rw [hw] at f4
    obtain ⟨d, hd, hp⟩ := f4
    rw [hd, List.append_assoc]
    exact paired_append_pair j hp
  · rw [hjl']
    intro j' hj'
    exact f5 j' (by rw [hjl]; exact List.mem_cons_of_mem j hj')
  · rw [hjl']
    intro j' hj'
    obtain ⟨c, hc, hcs⟩ := f6 j' (by rw [hjl]; exact List.mem_cons_of_mem j hj')
    have hne : j'.combId ≠ j.combId := by
      intro he
      exact hnd7.1 (he ▸ List.mem_map_of_mem Job.combId hj')
    refine ⟨c, ?_, hcs⟩
    calc findComb (finishFn cfg j o).combinations j'.combId
        = findComb cfg.combinations j'.combId :=
          findComb_update_ne cfg.combinations j o j'.combId hne
      _ = some c := hc
  · rw [hjl']
    exact hnd7.2
  · rw [hjl']
    intro j' hj'
    exact f8 j' (by rw [hjl]; exact List.mem_cons_of_mem j hj')
  · have hgoal : ((cfg.combinations.map
        (fun c => if c.id = j.combId then applyOutcome c j o else c)).map Combination.id).Nodup := by
      rw [update_map_ids]
      exact f9
    exact hgoal
  · intro c hc
    obtain ⟨c₀, hc₀, rfl⟩ := List.mem_map.mp hc
    have hid : (if c₀.id = j.combId then applyOutcome c₀ j o else c₀).id = c₀.id := by
      split
      · exact applyOutcome_id _ _ _
      · rfl
    show (if c₀.id = j.combId then applyOutcome c₀ j o else c₀).id < cfg.nextId
    rw [hid]
    exact f10 c₀ hc₀

theorem inv_tick (cfg : Config) (tr : List Ev)
    (hw : cfg.worker = some Worker.delaying) (hI : SysInv cfg tr) :
    SysInv (tickFn cfg).1 (tr ++ (tickFn cfg).2) := by
  obtain ⟨f1, f2, f3, f4, f5, f6, f7, f8, f9, f10⟩ := hI
  have hjl : jobList cfg = cfg.pending := jobList_eq_delaying cfg hw
  rw [hw] at f4
  have hpd : Paired (execOf tr) := f4
  cases hp : cfg.pending with
  | nil =>
    simp only [tickFn, hp]
    refine ⟨rfl, fun _ => rfl, ?_, ?_, ?_, ?_, ?_, ?_, f9, f10⟩
    · rw [hp] at f3
      rw [List.append_nil]
      exact f3
    · show Paired (execOf (tr ++ []))
      rw [List.append_nil]
      exact hpd
    · intro j hj
      simp [jobList] at hj
    · intro j hj
      simp [jobList] at hj
    · simp [jobList]
    · intro j hj
      simp [jobList] at hj
  | cons h t =>
    simp only [tickFn, hp]
    rw [hjl, hp] at f5 f6 f7 f8
    refine ⟨?_, ?_, ?_, ?_, ?_, ?_, ?_, ?_, f9, f10⟩
    · show cfg.flag = (some (Worker.awaiting h)).isSome
      rw [f1, hw]
      rfl
    · intro hnone
      exact Option.noConfusion hnone
    · rw [enqsOf_append, begsOf_append, enqsOf_single_beg, begsOf_single_beg, List.append_nil]
      rw [hp] at f3
      rw [List.append_assoc, List.singleton_append]
      exact f3
    · show ExecInv (some (Worker.awaiting h)) (execOf (tr ++ [Ev.beg h]))
      rw [execOf_append, execOf_single_beg]
      exact ⟨execOf tr, rfl, hpd⟩
    · intro j hj
      exact f5 j hj
    · intro j hj
      exact f6 j hj
    · exact f7
    · intro j hj
      exact f8 j hj

theorem jobList_extend (cfg : Config) (combos : List Combination) (nid : Nat) (fl : Bool)
    (js : List Job) :
    jobList (Config.mk cfg.segments combos (cfg.pending ++ js) fl cfg.worker nid)
      = jobList cfg ++ js := by
  unfold jobList
  rw [List.append_assoc]

theorem inv_generate (cfg : Config) (tr : List Ev) (hI : SysInv cfg tr) :
    SysInv (genStep cfg).1 (tr ++ (genStep cfg).2) := by
  obtain ⟨f1, f2, f3, f4, f5, f6, f7, f8, f9, f10⟩ := hI
  cases hg : generateFn cfg.segments cfg.combinations cfg.nextId with
  | error e =>
    simp only [genStep, hg]
    rw [List.append_nil]
    exact ⟨f1, f2, f3, f4, f5, f6, f7, f8, f9, f10⟩
  | ok out =>
    obtain ⟨hh, hsy, hct, hNC, hNJ, hComb, hNext⟩ := generateFn_ok _ _ _ _ hg
    have hmem := hookLoop_mem (cfg.segments.filter isStory) (cfg.segments.filter isCta)
      (cfg.segments.filter isHook) cfg.nextId
    have hndNC : (out.newCombs.map Combination.id).Nodup := by
      rw [hNC]
      exact (hookLoop_ids_pairwise _ _ _ _).imp Nat.ne_of_lt
    have hboundNC : ∀ cb ∈ out.newCombs, cfg.nextId ≤ cb.id ∧ cb.id < out.nextId := by
      intro cb hcb
      rw [hNC] at hcb
      obtain ⟨_, _, _, _, _, h6, h7⟩ := hmem cb hcb
      rw [hNext]
      exact ⟨h6, h7⟩
    have hjobsSegs : ∀ j' ∈ out.newJobs,
        (findSeg cfg.segments j'.hookId).isSome ∧ (findSeg cfg.segments j'.storyId).isSome ∧
        (findSeg cfg.segments j'.ctaId).isSome := by
      intro j' hj'
      rw [hNJ] at hj'
      obtain ⟨cb, hcb, rfl⟩ := List.mem_map.mp hj'
      rw [hNC] at hcb
      obtain ⟨_, _, h3, h4, h5, _, _⟩ := hmem cb hcb
      refine ⟨?_, ?_, ?_⟩
      · apply findSeg_isSome_of_id_mem
        obtain ⟨x, hx, hxi⟩ := List.mem_map.mp h3
        exact ⟨x, List.mem_of_mem_filter hx, hxi⟩
      · apply findSeg_isSome_of_id_mem
        obtain ⟨x, hx, hxi⟩ := List.mem_map.mp h4
        exact ⟨x, List.mem_of_mem_filter hx, hxi⟩
      · apply findSeg_isSome_of_id_mem
        obtain ⟨x, hx, hxi⟩ := List.mem_map.mp h5
        exact ⟨x, List.mem_of_mem_filter hx, hxi⟩
    have hjobsComb : ∀ j' ∈ out.newJobs,
        ∃ c, findComb out.combinations j'.combId = some c ∧ c.status = Status.processing := by
      intro j' hj'
      rw [hNJ] at hj'
      obtain ⟨cb, hcb, rfl⟩ := List.mem_map.mp hj'
      refine ⟨cb, ?_, ?_⟩
      · rw [hComb]
        exact findComb_append_new cfg.combinations out.newCombs cfg.nextId cb f10 hcb
          (hboundNC cb hcb).1 hndNC
      · rw [hNC] at hcb
        exact (hmem cb hcb).1
    have holdComb : ∀ j' ∈ jobList cfg,
        ∃ c, findComb out.combinations j'.combId = some c ∧ c.status = Status.processing := by
      intro j' hj'
      obtain ⟨c, hc, hcs⟩ := f6 j' hj'
      refine ⟨c, ?_, hcs⟩
      rw [hComb]
      unfold findComb at hc ⊢
      rw [List.find?_append, hc]
      rfl
    have hnextLe : cfg.nextId ≤ out.nextId := by
      rw [hNext]
      omega
    have hjobsLt : ∀ j' ∈ out.newJobs, j'.combId < out.nextId := by
      intro j' hj'
      rw [hNJ] at hj'
      obtain ⟨cb, hcb, rfl⟩ := List.mem_map.mp hj'
      exact (hboundNC cb hcb).2
    have holdJobsLt : ∀ j' ∈ jobList cfg, j'.combId < out.nextId := by
      intro j' hj'
      have := f8 j' hj'
      omega
    have hnewJobsIds : out.newJobs.map Job.combId = out.newCombs.map Combination.id := by
      rw [hNJ, List.map_map]
      rfl
    have hndJobsNew : (out.newJobs.map Job.combId).Nodup := by
      rw [hnewJobsIds]
      exact hndNC
    have hdisj : ∀ a ∈ (jobList cfg).map Job.combId, a ∉ out.newJobs.map Job.combId := by
      intro a ha hb
      obtain ⟨j', hj', rfl⟩ := List.mem_map.mp ha
      have hlt := f8 j' hj'
      rw [hnewJobsIds] at hb
      obtain ⟨cb, hcb, heq⟩ := List.mem_map.mp hb
      have := (hboundNC cb hcb).1
      omega
    have hcombNodup : (out.combinations.map Combination.id).Nodup := by
      rw [hComb, List.map_append, List.nodup_append]
      refine ⟨f9, hndNC, ?_⟩
      intro a ha hb
      obtain ⟨c, hc, rfl⟩ := List.mem_map.mp ha
      obtain ⟨cb, hcb, heq⟩ := List.mem_map.mp hb
      have hlt := f10 c hc
      have := (hboundNC cb hcb).1
      omega
    have hcombLt : ∀ c ∈ out.combinations, c.id < out.nextId := by
      rw [hComb]
      intro c hc
      rcases List.mem_append.mp hc with hc | hc
      · have := f10 c hc
        omega
      · exact (hboundNC c hc).2
    have hlenNJ : out.newJobs.length ≠ 0 := by
      rw [hNJ, List.length_map, hNC, hookLoop_len]
      have lh := List.length_pos.mpr hh
      have ls := List.length_pos.mpr hsy
      have lc := List.length_pos.mpr hct
      have := Nat.mul_pos lh (Nat.mul_pos ls lc)
      omega
    cases hfl : cfg.flag with
    | true =>
      simp only [genStep, hg, hfl, if_true]
      have hjl' := jobList_extend cfg out.combinations out.nextId true out.newJobs
      refine ⟨?_, ?_, ?_, ?_, ?_, ?_, ?_, ?_, hcombNodup, hcombLt⟩
      · rw [← hfl]
        exact f1
      · intro hnone
        rw [hnone] at f1
        rw [hfl] at f1
        simp at f1
      · rw [enqsOf_append, begsOf_append, enqsOf_map_enq, begsOf_map_enq, List.append_nil]
        rw [f3, List.append_assoc]
      · show ExecInv cfg.worker (execOf (tr ++ out.newJobs.map Ev.enq))
        rw [execOf_append, execOf_map_enq, List.append_nil]
        exact f4
      · rw [hjl']
        intro j' hj'
        rcases List.mem_append.mp hj' with hj' | hj'
        · exact f5 j' hj'
        · exact hjobsSegs j' hj'
      · rw [hjl']
        intro j' hj'
        rcases List.mem_append.mp hj' with hj' | hj'
        · exact holdComb j' hj'
        · exact hjobsComb j' hj'
      · rw [hjl', List.map_append, List.nodup_append]
        exact ⟨f7, hndJobsNew, hdisj⟩
      · rw [hjl']
        intro j' hj'
        rcases List.mem_append.mp hj' with hj' | hj'
        · exact holdJobsLt j' hj'
        · exact hjobsLt j' hj'
    | false =>
      have hwn : cfg.worker = none := by
        rw [hfl] at f1
        cases hwc : cfg.worker with
        | none => rfl
        | some w =>
          rw [hwc] at f1
          simp at f1
      have hpe : cfg.pending = [] := f2 hwn
      obtain ⟨h1, t1, hht⟩ : ∃ h1 t1, out.newJobs = h1 :: t1 := by
        cases hNJc : out.newJobs with
        | nil =>
          rw [hNJc] at hlenNJ
          simp at hlenNJ
        | cons a b => exact ⟨a, b, rfl⟩
      simp only [genStep, hg, hfl, hpe, hht, List.nil_append, Bool.false_eq_true, if_false]
      rw [hwn] at f4
      refine ⟨rfl, ?_, ?_, ?_, ?_, ?_, ?_, ?_, hcombNodup, hcombLt⟩
      · intro hnone
        exact Option.noConfusion hnone
      · rw [enqsOf_append, begsOf_append]
        rw [enqsOf_append, begsOf_append, enqsOf_map_enq, begsOf_map_enq]
        rw [enqsOf_single_beg, begsOf_single_beg, List.append_nil, List.nil_append]
        rw [f3, hpe, List.append_nil, List.append_assoc, List.singleton_append]
      · show ExecInv (some (Worker.awaiting h1))
          (execOf (tr ++ ((h1 :: t1).map Ev.enq ++ [Ev.beg h1])))
        rw [execOf_append, execOf_append, execOf_map_enq, execOf_single_beg, List.nil_append]
        exact ⟨execOf tr, rfl, f4⟩
      · intro j' hj'
        refine hjobsSegs j' ?_
        rw [hht]
        exact hj'
      · intro j' hj'
        refine hjobsComb j' ?_
        rw [hht]
        exact hj'
      · show ((h1 :: t1).map Job.combId).Nodup
        rw [← hht]
        exact hndJobsNew
      · intro j' hj'
        refine hjobsLt j' ?_
        rw [hht]
        exact hj'

theorem reach_inv {cfg : Config} {tr : List Ev} (h : Reach cfg tr) : SysInv cfg tr := by
  induction h with
  | init =>
    refine ⟨rfl, fun _ => rfl, rfl, ?_, ?_, ?_, ?_, ?_, ?_, ?_⟩
    · exact Paired.nil
    · intro j hj
      simp [jobList, initConfig] at hj
    · intro j hj
      simp [jobList, initConfig] at hj
    · simp [jobList, initConfig]
    · intro j hj
      simp [jobList, initConfig] at hj
    · simp [initConfig]
    · intro c hc
      simp [initConfig] at hc
  | step hr hs ih =>
    cases hs with
    | upload ty file url => exact inv_upload _ _ ty file url ih
    | generate => exact inv_generate _ _ ih
    | finish j o hw => exact inv_finish _ _ j o hw ih
    | tick hw => exact inv_tick _ _ hw ih

theorem reach_steps {cfg cfg' : Config} {evs : List Ev} (hs : Steps cfg evs cfg') :
    ∀ tr, Reach cfg tr → Reach cfg' (tr ++ evs) := by
  induction hs with
  | refl cfg =>
    intro tr hr
    rw [List.append_nil]
    exact hr
  | head hstep hrest ih =>
    intro tr hr
    rw [← List.append_assoc]
    exact ih _ (Reach.step hr hstep)

/-! ### Claims about the Processing Queue -/

/-- C2: on every reachable trace, the jobs whose execution has begun form a
prefix of the jobs enqueued, in the same order, and the begin/settle events
are strictly serialized: each job's task settles before the next one begins,
so no two execution intervals overlap and executions follow enqueue order,
whichever interleaving of upload, generate, and worker steps produced the
trace. -/
theorem c2_queue_fifo_serialized (cfg : Config) (tr : List Ev) (h : Reach cfg tr) :
    (∃ t, enqsOf tr = begsOf tr ++ t) ∧ Serialized (execOf tr) := by
  have hI := reach_inv h
  refine ⟨⟨cfg.pending, hI.enqSplit⟩, ?_⟩
  cases hw : cfg.worker with
  | none =>
    have hx := hI.execShape
    rw [hw] at hx
    exact paired_serialized hx
  | some w =>
    cases w with
    | delaying =>
      have hx := hI.execShape
      rw [hw] at hx
      exact paired_serialized hx
    | awaiting j =>
      have hx := hI.execShape
      rw [hw] at hx
      obtain ⟨d, hd, hp⟩ := hx
      rw [hd]
      exact serialized_append_beg j hp

theorem reach_trG : Reach cfgG trG := by
  have r1 := Reach.step Reach.init (Step.upload initConfig SegType.hook "h.mp4" "/uploads/h.mp4")
  have r2 := Reach.step r1 (Step.upload _ SegType.story "s.mp4" "/uploads/s.mp4")
  have r3 := Reach.step r2 (Step.upload _ SegType.cta "c.mp4" "/uploads/c.mp4")
  exact Reach.step r3 (Step.generate _)

/-- Witness for C2 on the concrete trace of three uploads and a generate. -/
theorem c2_queue_fifo_serialized_witness :
    (∃ t, enqsOf trG = begsOf trG ++ t) ∧ Serialized (execOf trG) :=
  c2_queue_fifo_serialized cfgG trG reach_trG

theorem findComb_update_self (l : List Combination) (j : Job) (o : Outcome) (c : Combination)
    (hc : findComb l j.combId = some c) :
    findComb (l.map (fun x => if x.id = j.combId then applyOutcome x j o else x)) j.combId
      = some (applyOutcome c j o) := by
  induction l with
  | nil => cases hc
  | cons x rest ih =>
    unfold findComb at hc ⊢
    cases hpx : (x.id == j.combId) with
    | true =>
      have hxe : x.id = j.combId := beq_iff_eq.mp hpx
      rw [List.map_cons, if_pos hxe]
      have hbeq : ((applyOutcome x j o).id == j.combId) = true := by
        rw [applyOutcome_id]
        exact hpx
      simp only [List.find?_cons, hbeq]
      simp only [List.find?_cons, hpx] at hc
      injection hc with hc
      rw [hc]
    | false =>
      have hxe : ¬(x.id = j.combId) := by
        intro he
        rw [he] at hpx
        simp at hpx
      rw [List.map_cons, if_neg hxe]
      have hbeq : ((x.id == j.combId)) = false := hpx
      simp only [List.find?_cons, hbeq] at hc ⊢
      exact ih hc

/-! ### Claim about the status state machine -/

/-- C9: over every step out of a reachable configuration, combination
statuses move monotonically: a record whose status already left
`processing` is carried over completely unchanged; a record whose status
changes was `processing` before and becomes `ready` or `error`; and a
record that appears fresh in the store starts as `processing`.  Hence each
record transitions at most once, only away from `processing`. -/
theorem c9_status_transitions_once (cfg : Config) (tr evs : List Ev) (cfg' : Config)
    (hr : Reach cfg tr) (hs : Step cfg evs cfg') :
    (∀ i c, findComb cfg.combinations i = some c → c.status ≠ Status.processing →
      findComb cfg'.combinations i = some c) ∧
    (∀ i c c', findComb cfg.combinations i = some c → findComb cfg'.combinations i = some c' →
      c.status ≠ c'.status →
      c.status = Status.processing ∧ (c'.status = Status.ready ∨ c'.status = Status.error)) ∧
    (∀ i c', findComb cfg.combinations i = none → findComb cfg'.combinations i = some c' →
      c'.status = Status.processing) := by
  have hI := reach_inv hr
  cases hs with
  | upload ty file url =>
    refine ⟨fun i c hc _ => hc, ?_, ?_⟩
    · intro i c c' hc hc' hne
      have h2 := Option.some.inj (hc.symm.trans hc')
      exact absurd (by rw [h2]) hne
    · intro i c' hn hc'
      exact Option.noConfusion (hn.symm.trans hc')
  | generate =>
    cases hg : generateFn cfg.segments cfg.combinations cfg.nextId with
    | error e =>
      have hEq : (genStep cfg).1 = cfg := by simp only [genStep, hg]
      rw [hEq]
      refine ⟨fun i c hc _ => hc, ?_, ?_⟩
      · intro i c c' hc hc' hne
        rw [hc] at hc'
        injection hc' with h2
        exact absurd (by rw [h2]) hne
      · intro i c' hn hc'
        rw [hn] at hc'
        exact Option.noConfusion hc'
    | ok out =>
      obtain ⟨hh, hsy, hct, hNC, hNJ, hComb, hNext⟩ := generateFn_ok _ _ _ _ hg
      have hCC : (genStep cfg).1.combinations = cfg.combinations ++ out.newCombs := by
        cases hfl : cfg.flag with
        | false =>
          cases hq : cfg.pending ++ out.newJobs with
          | nil => simp [genStep, hg, hfl, hq, hComb]
          | cons a b => simp [genStep, hg, hfl, hq, hComb]
        | true => simp [genStep, hg, hfl, hComb]
      rw [hCC]
      refine ⟨?_, ?_, ?_⟩
      · intro i c hc _
        unfold findComb at hc ⊢
        rw [List.find?_append, hc]
        rfl
      · intro i c c' hc hc' hne
        unfold findComb at hc hc'
        rw [List.find?_append, hc] at hc'
        have h2 : some c = some c' := by
          rw [← hc']
          rfl
        injection h2 with h2
        exact absurd (by rw [h2]) hne
      · intro i c' hn hc'
        unfold findComb at hn hc'
        rw [List.find?_append, hn] at hc'
        have h2 : out.newCombs.find? (fun c => c.id == i) = some c' := by
          rw [← hc']
          rfl
        have hmemc := List.mem_of_find?_eq_some h2
        rw [hNC] at hmemc
        exact (hookLoop_mem _ _ _ _ c' hmemc).1
  | finish j o hw =>
    obtain ⟨cp, hcp, hcps⟩ := hI.jobComb j
      (by rw [jobList_eq_awaiting cfg j hw]; exact List.mem_cons_self _ _)
    refine ⟨?_, ?_, ?_⟩
    · intro i c hc hcs
      by_cases hi : i = j.combId
      · subst hi
        have hceq := Option.some.inj (hc.symm.trans hcp)
        rw [hceq] at hcs
        exact absurd hcps hcs
      · calc findComb (finishFn cfg j o).combinations i
            = findComb cfg.combinations i := findComb_update_ne _ _ _ _ hi
          _ = some c := hc
    · intro i c c' hc hc' hne
      by_cases hi : i = j.combId
      · subst hi
        have hceq := Option.some.inj (hc.symm.trans hcp)
        refine ⟨by rw [hceq]; exact hcps, ?_⟩
        have hself := findComb_update_self cfg.combinations j o c hc
        have h3 := Option.some.inj (hc'.symm.trans hself)
        rw [h3]
        cases o with
        | success => left; rfl
        | failure => right; rfl
      · have h4 : findComb cfg.combinations i = some c' :=
          (findComb_update_ne cfg.combinations j o i hi).symm.trans hc'
        have h5 := Option.some.inj (hc.symm.trans h4)
        exact absurd (by rw [h5]) hne
    · intro i c' hn hc'
      by_cases hi : i = j.combId
      · subst hi
        rw [hn] at hcp
        exact Option.noConfusion hcp
      · have h4 : findComb cfg.combinations i = some c' :=
          (findComb_update_ne cfg.combinations j o i hi).symm.trans hc'
        rw [hn] at h4
        exact Option.noConfusion h4
  | tick hw =>
    have hCC : (tickFn cfg).1.combinations = cfg.combinations := by
      cases hp : cfg.pending with
      | nil => simp [tickFn, hp]
      | cons a b => simp [tickFn, hp]
    rw [hCC]
    refine ⟨fun i c hc _ => hc, ?_, ?_⟩
    · intro i c c' hc hc' hne
      rw [hc] at hc'
      injection hc' with h2
      exact absurd (by rw [h2]) hne
    · intro i c' hn hc'
      rw [hn] at hc'
      exact Option.noConfusion hc'

/-- Witness for C9: the concrete job of the generated combination settling
with a failure outcome. -/
theorem c9_status_transitions_once_witness :
    (∀ i c, findComb cfgG.combinations i = some c → c.status ≠ Status.processing →
      findComb (finishFn cfgG jW Outcome.failure).combinations i = some c) ∧
    (∀ i c c', findComb cfgG.combinations i = some c →
      findComb (finishFn cfgG jW Outcome.failure).combinations i = some c' →
      c.status ≠ c'.status →
      c.status = Status.processing ∧ (c'.status = Status.ready ∨ c'.status = Status.error)) ∧
    (∀ i c', findComb cfgG.combinations i = none →
      findComb (finishFn cfgG jW Outcome.failure).combinations i = some c' →
      c'.status = Status.processing) :=
  c9_status_transitions_once cfgG trG [Ev.fin jW Outcome.failure]
    (finishFn cfgG jW Outcome.failure) reach_trG (Step.finish cfgG jW Outcome.failure rfl)

theorem genStep_segments (cfg : Config) : (genStep cfg).1.segments = cfg.segments := by
  unfold genStep
  split
  · rfl
  · split
    · rfl
    · split <;> rfl

theorem tickFn_segments (cfg : Config) : (tickFn cfg).1.segments = cfg.segments := by
  unfold tickFn
  split <;> rfl

/-- C10: on every reachable configuration, every job that is queued or
currently running references three segment ids that all resolve in the
segment store (the non-null assertions in the job closure are safe); and
every step only ever appends to the segment store, never removes or
replaces a segment. -/
theorem c10_job_lookups_resolve (cfg : Config) (tr : List Ev) (hr : Reach cfg tr) :
    (∀ j, cfg.worker = some (Worker.awaiting j) ∨ j ∈ cfg.pending →
      (findSeg cfg.segments j.hookId).isSome ∧ (findSeg cfg.segments j.storyId).isSome ∧
      (findSeg cfg.segments j.ctaId).isSome) ∧
    (∀ (cfg₁ cfg₂ : Config) (evs : List Ev), Step cfg₁ evs cfg₂ →
      ∃ t, cfg₂.segments = cfg₁.segments ++ t) := by
  constructor
  · intro j hj
    apply (reach_inv hr).jobSegs
    unfold jobList
    rcases hj with hw | hp
    · rw [hw]
      exact List.mem_cons_self _ _
    · exact List.mem_append_right _ hp
  · intro cfg₁ cfg₂ evs hstep
    cases hstep with
    | upload ty file url =>
      exact ⟨[{ id := cfg₁.nextId, file := file, type := ty, previewUrl := url }], rfl⟩
    | generate =>
      refine ⟨[], ?_⟩
      rw [genStep_segments, List.append_nil]
    | finish j o hw =>
      refine ⟨[], ?_⟩
      rw [List.append_nil]
      rfl
    | tick hw =>
      refine ⟨[], ?_⟩
      rw [tickFn_segments, List.append_nil]

/-- Witness for C10: the generated job's three lookups on the concrete
reachable configuration. -/
theorem c10_job_lookups_resolve_witness :
    (findSeg cfgG.segments jW.hookId).isSome ∧ (findSeg cfgG.segments jW.storyId).isSome ∧
    (findSeg cfgG.segments jW.ctaId).isSome :=
  (c10_job_lookups_resolve cfgG trG reach_trG).1 jW (Or.inl rfl)

/-! ### Draining the queue -/

theorem drain_empty (f : Job → Outcome) (cfg : Config) (hpe : cfg.pending = []) :
    ∃ evs cfg', Steps cfg evs cfg' ∧ cfg'.worker = none ∧ cfg'.pending = [] ∧
      (∀ j o, Ev.fin j o ∈ evs → o = f j) := by
  cases hwc : cfg.worker with
  | none =>
    exact ⟨[], cfg, Steps.refl cfg, hwc, hpe, fun j o hmem => absurd hmem (List.not_mem_nil _)⟩
  | some w =>
    cases w with
    | delaying =>
      refine ⟨(tickFn cfg).2 ++ [], (tickFn cfg).1,
        Steps.head (Step.tick cfg hwc) (Steps.refl _), ?_, ?_, ?_⟩
      · simp [tickFn, hpe]
      · simp [tickFn, hpe]
      · intro j o hmem
        simp [tickFn, hpe] at hmem
    | awaiting j =>
      have hw1 : (finishFn cfg j (f j)).worker = some Worker.delaying := rfl
      have hp1 : (finishFn cfg j (f j)).pending = [] := hpe
      refine ⟨[Ev.fin j (f j)] ++ ((tickFn (finishFn cfg j (f j))).2 ++ []),
        (tickFn (finishFn cfg j (f j))).1,
        Steps.head (Step.finish cfg j (f j) hwc)
          (Steps.head (Step.tick _ hw1) (Steps.refl _)), ?_, ?_, ?_⟩
      · simp [tickFn, hp1]
      · simp [tickFn, hp1]
      · intro j' o hmem
        simp [tickFn, hp1] at hmem
        obtain ⟨h1, h2⟩ := hmem
        rw [h1]
        exact h2

theorem drain_ex (f : Job → Outcome) : ∀ (m : Nat) (cfg : Config), cfg.pending.length ≤ m →
    (cfg.worker = none → cfg.pending = []) →
    ∃ evs cfg', Steps cfg evs cfg' ∧ cfg'.worker = none ∧ cfg'.pending = [] ∧
      (∀ j o, Ev.fin j o ∈ evs → o = f j) := by
  intro m
  induction m with
  | zero =>
    intro cfg hlen hwp
    have hpe : cfg.pending = [] := by
      cases hp : cfg.pending with
      | nil => rfl
      | cons a b =>
        rw [hp] at hlen
        simp at hlen
    exact drain_empty f cfg hpe
  | succ m ih =>
    intro cfg hlen hwp
    cases hp : cfg.pending with
    | nil => exact drain_empty f cfg hp
    | cons h t =>
      cases hwc : cfg.worker with
      | none =>
        rw [hwp hwc] at hp
        cases hp
      | some w =>
        cases w with
        | delaying =>
          have hres : tickFn cfg = (Config.mk cfg.segments cfg.combinations t cfg.flag
              (some (Worker.awaiting h)) cfg.nextId, [Ev.beg h]) := by
            simp [tickFn, hp]
          have hlen' : (tickFn cfg).1.pending.length ≤ m := by
            rw [hres]
            rw [hp] at hlen
            simp at hlen ⊢
            omega
          have hwp' : (tickFn cfg).1.worker = none → (tickFn cfg).1.pending = [] := by
            rw [hres]
            intro hnone
            exact Option.noConfusion hnone
          obtain ⟨evs, cfg', hsteps, hw', hp', hf⟩ := ih (tickFn cfg).1 hlen' hwp'
          refine ⟨(tickFn cfg).2 ++ evs, cfg', Steps.head (Step.tick cfg hwc) hsteps,
            hw', hp', ?_⟩
          intro j o hmem
          rcases List.mem_append.mp hmem with hmem | hmem
          · rw [hres] at hmem
            simp at hmem
          · exact hf j o hmem
        | awaiting j =>
          have hw1 : (finishFn cfg j (f j)).worker = some Worker.delaying := rfl
          have hp1 : (finishFn cfg j (f j)).pending = h :: t := hp
          have hres : tickFn (finishFn cfg j (f j)) = (Config.mk (finishFn cfg j (f j)).segments
              (finishFn cfg j (f j)).combinations t (finishFn cfg j (f j)).flag
              (some (Worker.awaiting h)) (finishFn cfg j (f j)).nextId, [Ev.beg h]) := by
            simp [tickFn, hp1]
          have hlen' : (tickFn (finishFn cfg j (f j))).1.pending.length ≤ m := by
            rw [hres]
            rw [hp] at hlen
            simp at hlen ⊢
            omega
          have hwp' : (tickFn (finishFn cfg j (f j))).1.worker = none →
              (tickFn (finishFn cfg j (f j))).1.pending = [] := by
            rw [hres]
            intro hnone
            exact Option.noConfusion hnone
          obtain ⟨evs, cfg', hsteps, hw', hp', hf⟩ := ih (tickFn (finishFn cfg j (f j))).1 hlen' hwp'
          refine ⟨[Ev.fin j (f j)] ++ ((tickFn (finishFn cfg j (f j))).2 ++ evs), cfg',
            Steps.head (Step.finish cfg j (f j) hwc)
              (Steps.head (Step.tick _ hw1) hsteps), hw', hp', ?_⟩
          intro j' o hmem
          rcases List.mem_append.mp hmem with hmem | hmem
          · simp at hmem
            obtain ⟨h1, h2⟩ := hmem
            rw [h1]
            exact h2
          · rcases List.mem_append.mp hmem with hmem | hmem
            · rw [hres] at hmem
              simp at hmem
            · exact hf j' o hmem

/-- C3: failure isolation.  First, from every reachable configuration the
worker drains the whole queue no matter which outcome each job's task has —
in particular even when some or all jobs fail — ending with an idle worker,
an empty queue, every enqueued job begun, and a fully paired execution
record (every begun job also settled).  Second, a settling job only writes
its own combination record: every other record is carried over unchanged,
so one job's failure cannot touch a sibling's status. -/
theorem c3_failure_isolation :
    (∀ (cfg : Config) (tr : List Ev), Reach cfg tr → ∀ f : Job → Outcome,
      ∃ evs cfg', Steps cfg evs cfg' ∧ cfg'.worker = none ∧ cfg'.pending = [] ∧
        (∀ j o, Ev.fin j o ∈ evs → o = f j) ∧
        enqsOf (tr ++ evs) = begsOf (tr ++ evs) ∧ Paired (execOf (tr ++ evs))) ∧
    (∀ (cfg : Config) (j : Job) (o : Outcome) (c : Combination),
      c ∈ cfg.combinations → c.id ≠ j.combId → c ∈ (finishFn cfg j o).combinations) := by
  constructor
  · intro cfg tr hr f
    obtain ⟨evs, cfg', hsteps, hw', hp', hf⟩ :=
      drain_ex f cfg.pending.length cfg (le_refl _) (reach_inv hr).pendingIdle
    have hr' : Reach cfg' (tr ++ evs) := reach_steps hsteps tr hr
    have hI' := reach_inv hr'
    refine ⟨evs, cfg', hsteps, hw', hp', hf, ?_, ?_⟩
    · have hsp := hI'.enqSplit
      rw [hp'] at hsp
      rw [hsp, List.append_nil]
    · have hx := hI'.execShape
      rw [hw'] at hx
      exact hx
  · intro cfg j o c hc hne
    refine List.mem_map.mpr ⟨c, hc, ?_⟩
    show (if c.id = j.combId then applyOutcome c j o else c) = c
    rw [if_neg hne]

/-- Witness for C3: draining the concrete configuration with every job
forced to fail. -/
theorem c3_failure_isolation_witness :
    ∃ evs cfg', Steps cfgG evs cfg' ∧ cfg'.worker = none ∧ cfg'.pending = [] ∧
      (∀ j o, Ev.fin j o ∈ evs → o = (fun _ => Outcome.failure) j) ∧
      enqsOf (trG ++ evs) = begsOf (trG ++ evs) ∧ Paired (execOf (trG ++ evs)) :=
  c3_failure_isolation.1 cfgG trG reach_trG (fun _ => Outcome.failure)

/-! ### The generate response (claim C5) -/

theorem errUpd_map_ids (l : List Combination) (i : Nat) :
    ((l.map (fun c => if c.id = i then { c with status := Status.error } else c)).map
      Combination.id) = l.map Combination.id := by
  rw [List.map_map]
  apply List.map_eq_map_iff.mpr
  intro c hc
  simp only [Function.comp_apply]
  split <;> rfl

theorem mem_id_inj (l : List Combination) (a b : Combination) (ha : a ∈ l) (hb : b ∈ l)
    (hnd : (l.map Combination.id).Nodup) (heq : a.id = b.id) : a = b := by
  have h1 := find?_id_of_nodup l a ha hnd
  have h2 := find?_id_of_nodup l b hb hnd
  rw [heq] at h1
  exact Option.some.inj (h1.symm.trans h2)

/-- C5 counterexample: the generate handler responds with
`res.json(combinations)` — the whole historical store.  Concretely, after a
second generate call on the same one-per-pool store (with the worker idle
and all media files readable, so the freshly started head job suspends at
its first await), the response has two records, not one, it differs from
the list of records the second call created, and its first element is the
record created by the FIRST call. -/
theorem c5_counterexample_response_not_new_records :
    generateResponse segsW genW1.combinations genW1.nextId [] false fsInW
      = Except.ok genW2.combinations ∧
    genW2.newCombs.length = 1 ∧
    genW2.combinations.length = 2 ∧
    genW2.combinations ≠ genW2.newCombs ∧
    genW1.newCombs.head? = genW2.combinations.head? := by
  refine ⟨rfl, rfl, rfl, ?_, rfl⟩
  decide

/-- C5 as amended: a successful generate call responds with the whole
current contents of the combination store at response time — the
previously stored records (returned unchanged) followed by this call's new
records, same ids in the same order, so after a second generation call the
returned list contains the first call's records as well.  Every new record
is returned with status `processing`, except that when the worker was idle
the head job's task has already run synchronously up to its first await,
and if that synchronous prefix threw (failed lookup or missing input
file), the first new record is returned already in status `error`. -/
theorem c5_amended_response_whole_store (segments : List Segment) (combos : List Combination)
    (n : Nat) (pending : List Job) (flag : Bool) (fs : FS) (resp : List Combination)
    (hip : flag = false → pending = [])
    (hlt : ∀ c ∈ combos, c.id < n)
    (h : generateResponse segments combos n pending flag fs = Except.ok resp) :
    ∃ out, generateFn segments combos n = Except.ok out ∧
      out.combinations = combos ++ out.newCombs ∧
      resp.map Combination.id = (combos ++ out.newCombs).map Combination.id ∧
      (∀ c ∈ combos, c ∈ resp) ∧
      (∀ cb ∈ out.newCombs,
        (∃ cb' ∈ resp, cb'.id = cb.id ∧ cb'.status = Status.processing) ∨
        (flag = false ∧ out.newJobs.head? = some (combToJob cb) ∧
          jobSyncOk segments fs (combToJob cb) = false ∧
          ∃ cb' ∈ resp, cb'.id = cb.id ∧ cb'.status = Status.error)) := by
  unfold generateResponse at h
  cases hg : generateFn segments combos n with
  | error e =>
    rw [hg] at h
    cases h
  | ok out =>
    rw [hg] at h
    replace h : (if flag = true then Except.ok out.combinations
        else
          match pending ++ out.newJobs with
          | [] => Except.ok out.combinations
          | j :: _ =>
            if jobSyncOk segments fs j = true then Except.ok out.combinations
            else Except.ok (out.combinations.map
              (fun c => if c.id = j.combId then { c with status := Status.error } else c)))
        = Except.ok resp := h
    obtain ⟨hh, hsy, hct, hNC, hNJ, hComb, hNext⟩ := generateFn_ok _ _ _ _ hg
    have hmem := hookLoop_mem (segments.filter isStory) (segments.filter isCta)
      (segments.filter isHook) n
    have hstat : ∀ cb ∈ out.newCombs, cb.status = Status.processing := by
      intro cb hcb
      rw [hNC] at hcb
      exact (hmem cb hcb).1
    have hge : ∀ cb ∈ out.newCombs, n ≤ cb.id := by
      intro cb hcb
      rw [hNC] at hcb
      exact (hmem cb hcb).2.2.2.2.2.1
    have hndNC : (out.newCombs.map Combination.id).Nodup := by
      rw [hNC]
      exact (hookLoop_ids_pairwise _ _ _ _).imp Nat.ne_of_lt
    have hplain : resp = out.combinations →
        (resp.map Combination.id = (combos ++ out.newCombs).map Combination.id ∧
         (∀ c ∈ combos, c ∈ resp) ∧
         (∀ cb ∈ out.newCombs, ∃ cb' ∈ resp, cb'.id = cb.id ∧
           cb'.status = Status.processing)) := by
      intro hr
      subst hr
      rw [hComb]
      refine ⟨rfl, ?_, ?_⟩
      · intro c hc
        exact List.mem_append_left _ hc
      · intro cb hcb
        exact ⟨cb, List.mem_append_right _ hcb, rfl, hstat cb hcb⟩
    cases flag with
    | true =>
      rw [if_pos rfl] at h
      injection h with h
      obtain ⟨hA, hB, hC⟩ := hplain h.symm
      exact ⟨out, rfl, hComb, hA, hB, fun cb hcb => Or.inl (hC cb hcb)⟩
    | false =>
      rw [if_neg Bool.false_ne_true, hip rfl, List.nil_append] at h
      cases hnj : out.newJobs with
      | nil =>
        simp only [hnj, Except.ok.injEq] at h
        obtain ⟨hA, hB, hC⟩ := hplain h.symm
        exact ⟨out, rfl, hComb, hA, hB, fun cb hcb => Or.inl (hC cb hcb)⟩
      | cons j t =>
        simp only [hnj] at h
        obtain ⟨cbh, cr, hnc, hjh⟩ : ∃ cbh cr, out.newCombs = cbh :: cr ∧ combToJob cbh = j := by
          rw [hnj] at hNJ
          cases hnc : out.newCombs with
          | nil =>
            rw [hnc] at hNJ
            cases hNJ
          | cons cbh cr =>
            rw [hnc, List.map_cons] at hNJ
            injection hNJ with h1 h2
            exact ⟨cbh, cr, rfl, h1.symm⟩
        have hcbh_mem : cbh ∈ out.newCombs := by
          rw [hnc]
          exact List.mem_cons_self _ _
        have hjid : j.combId = cbh.id := by
          rw [← hjh]
          rfl
        cases hok : jobSyncOk segments fs j with
        | true =>
          rw [hok, if_pos rfl] at h
          injection h with h
          obtain ⟨hA, hB, hC⟩ := hplain h.symm
          exact ⟨out, rfl, hComb, hA, hB, fun cb hcb => Or.inl (hC cb hcb)⟩
        | false =>
          rw [hok, if_neg Bool.false_ne_true] at h
          injection h with h
          have hresp : resp = out.combinations.map
              (fun c => if c.id = j.combId then { c with status := Status.error } else c) :=
            h.symm
          refine ⟨out, rfl, hComb, ?_, ?_, ?_⟩
          · rw [hresp, errUpd_map_ids, hComb]
          · intro c hc
            rw [hresp]
            refine List.mem_map.mpr ⟨c, ?_, ?_⟩
            · rw [hComb]
              exact List.mem_append_left _ hc
            · have hlt' := hlt c hc
              have hgeh := hge cbh hcbh_mem
              have hne : ¬(c.id = j.combId) := by
                rw [hjid]
                omega
              show (if c.id = j.combId then { c with status := Status.error } else c) = c
              rw [if_neg hne]
          · intro cb hcb
            by_cases hcbid : cb.id = j.combId
            · right
              have hcbeq : cb = cbh := by
                apply mem_id_inj out.newCombs cb cbh hcb hcbh_mem hndNC
                rw [hcbid, hjid]
              refine ⟨rfl, ?_, ?_, ?_⟩
              · rw [hnj, hcbeq, hjh]
                rfl
              · rw [hcbeq, hjh]
                exact hok
              · refine ⟨{ cbh with status := Status.error }, ?_, ?_, rfl⟩
                · rw [hresp]
                  refine List.mem_map.mpr ⟨cbh, ?_, ?_⟩
                  · rw [hComb]
                    exact List.mem_append_right _ hcbh_mem
                  · show (if cbh.id = j.combId then { cbh with status := Status.error } else cbh)
                      = { cbh with status := Status.error }
                    rw [if_pos hjid.symm]
                · show cbh.id = cb.id
                  rw [hcbeq]
            · left
              refine ⟨cb, ?_, rfl, hstat cb hcb⟩
              rw [hresp]
              refine List.mem_map.mpr ⟨cb, ?_, ?_⟩
              · rw [hComb]
                exact List.mem_append_right _ hcb
              · show (if cb.id = j.combId then { cb with status := Status.error } else cb) = cb
                rw [if_neg hcbid]

/-- Witness for the amended C5: a generate call on the one-per-pool store
against an empty file system — the worker starts the head job synchronously,
its input checks throw, and the response carries that record as `error`. -/
theorem c5_amended_response_whole_store_witness :
    ∃ out, generateFn segsW [] 3 = Except.ok out ∧
      out.combinations = [] ++ out.newCombs ∧
      genW3resp.map Combination.id = ([] ++ out.newCombs).map Combination.id ∧
      (∀ c ∈ ([] : List Combination), c ∈ genW3resp) ∧
      (∀ cb ∈ out.newCombs,
        (∃ cb' ∈ genW3resp, cb'.id = cb.id ∧ cb'.status = Status.processing) ∨
        (false = false ∧ out.newJobs.head? = some (combToJob cb) ∧
          jobSyncOk segsW (fun _ => none) (combToJob cb) = false ∧
          ∃ cb' ∈ genW3resp, cb'.id = cb.id ∧ cb'.status = Status.error)) :=
  c5_amended_response_whole_store segsW [] 3 [] false (fun _ => none) genW3resp
    (fun _ => rfl) (fun c hc => absurd hc (List.not_mem_nil c)) rfl
